import Mathlib

/-!
# Verification of the split-image pixel-processing core

Shallow embedding of the pixel algorithms of the `split-image` repository:

* `src/utils/imageProcess.ts` — `removeWhiteBackground` (flood fill from the
  borders, optional selection seeding, expansion pass);
* `src/utils/gifEncoder.ts` (sprite-sheet part) — `isMagenta`,
  `isMagentaSpill`, `applyExpansionAndDespill`, `removeMagentaBackground`,
  `cropFromCenter`;
* `src/utils/splitImage.ts` — `calculateRegions`;
* the Gemini watermark engine — `detectWatermarkConfig`,
  `calculateWatermarkPosition`, `calculateAlphaMap`,
  `applyReverseAlphaBlending`, `GeminiWatermarkEngine`.

Pixel buffers are modelled as total functions from integer coordinates to
RGBA pixels; the TypeScript code addresses the flat `data` array through the
index `(y * width + x) * 4 + c`, which is exactly the coordinate access for
in-bounds pixels.  Machine numbers are modelled by `ℤ`/`ℕ` (byte channels)
and `ℚ` (the JavaScript float arithmetic of the predicates, which is exact
on the ranges involved).  The BFS queue of the flood fill marks a pixel
visited at the moment it is enqueued and dequeues every queued pixel before
terminating, so the set of pixels whose alpha is cleared by the loop equals
the final visited set; `floodLoop` below returns that set.
-/

/-- One RGBA pixel with byte channels. -/
structure Pixel where
  r : ℕ
  g : ℕ
  b : ℕ
  a : ℕ
deriving DecidableEq, Repr

/-- An image: pixels addressed by (x, y) integer coordinates. -/
abbrev Img := ℤ × ℤ → Pixel

/-- The bounds check `nx >= 0 && nx < width && ny >= 0 && ny < height`. -/
def inBounds (w h : ℤ) (p : ℤ × ℤ) : Bool :=
  decide (0 ≤ p.1) && decide (p.1 < w) && decide (0 ≤ p.2) && decide (p.2 < h)

/-- All in-bounds coordinates, as a finite set. -/
def grid (w h : ℤ) : Finset (ℤ × ℤ) :=
  Finset.Icc 0 (w - 1) ×ˢ Finset.Icc 0 (h - 1)

theorem mem_grid {w h : ℤ} {p : ℤ × ℤ} : p ∈ grid w h ↔ inBounds w h p = true := by
  cases p with
  | mk x y =>
    simp [grid, inBounds, Finset.mem_product, Finset.mem_Icc]
    omega

/-- The 4-neighbourhood offsets `dx = [1,-1,0,0]`, `dy = [0,0,1,-1]`. -/
def dirs4 : List (ℤ × ℤ) := [(1, 0), (-1, 0), (0, 1), (0, -1)]

/-- The 8-neighbourhood offsets `dx8`/`dy8`. -/
def dirs8 : List (ℤ × ℤ) :=
  [(1, 1), (1, 0), (1, -1), (0, 1), (0, -1), (-1, 1), (-1, 0), (-1, -1)]

/-- Neighbours of a coordinate along a list of offsets. -/
def neighborsOf (dirs : List (ℤ × ℤ)) (p : ℤ × ℤ) : List (ℤ × ℤ) :=
  dirs.map fun d => (p.1 + d.1, p.2 + d.2)

theorem neighborsOf_dirs4_nodup (p : ℤ × ℤ) : (neighborsOf dirs4 p).Nodup := by
  obtain ⟨x, y⟩ := p
  simp [neighborsOf, dirs4, Prod.ext_iff]

theorem mem_neighborsOf_dirs4 {p q : ℤ × ℤ} :
    q ∈ neighborsOf dirs4 p ↔
      q = (p.1 + 1, p.2) ∨ q = (p.1 - 1, p.2) ∨ q = (p.1, p.2 + 1) ∨ q = (p.1, p.2 - 1) := by
  obtain ⟨a, b⟩ := p
  obtain ⟨c, d⟩ := q
  simp [neighborsOf, dirs4, Prod.ext_iff]
  omega

theorem neighborsOf_dirs4_symm {p q : ℤ × ℤ} :
    q ∈ neighborsOf dirs4 p ↔ p ∈ neighborsOf dirs4 q := by
  obtain ⟨a, b⟩ := p
  obtain ⟨c, d⟩ := q
  simp [neighborsOf, dirs4, Prod.ext_iff]
  omega

/-- The white-background predicate of `removeWhiteBackground`:
`data[idx] >= threshold && data[idx+1] >= threshold && data[idx+2] >= threshold`
with `threshold = 255 - colorDistance`. -/
def isWhite (threshold : ℤ) (r g b : ℕ) : Bool :=
  decide (threshold ≤ (r : ℤ)) && decide (threshold ≤ (g : ℤ)) && decide (threshold ≤ (b : ℤ))

/-- One step of the seed-collection loops: a candidate pixel is pushed on the
queue and marked visited when it matches the background predicate and is not
yet visited. -/
def seedScan (isBg : ℤ × ℤ → Bool) (cands : List (ℤ × ℤ))
    (init : List (ℤ × ℤ) × Finset (ℤ × ℤ)) : List (ℤ × ℤ) × Finset (ℤ × ℤ) :=
  cands.foldl
    (fun acc p =>
      if isBg p && decide (p ∉ acc.2) then (acc.1 ++ [p], insert p acc.2) else acc)
    init

/-- Candidate pixels of the border-seeding loops, in program order:
`(x, 0)` and `(x, height-1)` for `x = 0 .. width-1`, then `(0, y)` and
`(width-1, y)` for `y = 1 .. height-2`. -/
def edgeCandidates (w h : ℤ) : List (ℤ × ℤ) :=
  ((List.range w.toNat).flatMap fun x => [((x : ℤ), 0), ((x : ℤ), h - 1)]) ++
    ((List.range (h - 2).toNat).flatMap fun i => [(0, (i : ℤ) + 1), (w - 1, (i : ℤ) + 1)])

/-- Selection rectangle, in percent of the image size. -/
structure Selection where
  x : ℚ
  y : ℚ
  w : ℚ
  h : ℚ
deriving DecidableEq, Repr

/-- Candidate pixels of the selection-seeding scan of `removeWhiteBackground`,
row-major over `[startX, endX) × [startY, endY)`. -/
def selectionCandidates (sel : Selection) (w h : ℤ) : List (ℤ × ℤ) :=
  let startX := max 0 ⌊sel.x / 100 * (w : ℚ)⌋
  let startY := max 0 ⌊sel.y / 100 * (h : ℚ)⌋
  let endX := min w ⌊(sel.x + sel.w) / 100 * (w : ℚ)⌋
  let endY := min h ⌊(sel.y + sel.h) / 100 * (h : ℚ)⌋
  (List.range (endY - startY).toNat).flatMap fun i =>
    (List.range (endX - startX).toNat).map fun j => (startX + (j : ℤ), startY + (i : ℤ))

/-- The BFS flood-fill loop (`while (head < queue.length)`): dequeue a pixel,
enqueue its in-bounds 4-neighbours that match the predicate and are not yet
visited, marking them visited.  Returns the final visited set, which is the
set of pixels the loop clears. -/
def floodLoop (isBg : ℤ × ℤ → Bool) (w h : ℤ) (queue : List (ℤ × ℤ))
    (visited : Finset (ℤ × ℤ)) : Finset (ℤ × ℤ) :=
  match queue with
  | [] => visited
  | c :: rest =>
    let ns := (neighborsOf dirs4 c).filter fun n =>
      inBounds w h n && isBg n && decide (n ∉ visited)
    floodLoop isBg w h (rest ++ ns) (visited ∪ ns.toFinset)
termination_by 5 * ((grid w h \ visited).card) + queue.length
decreasing_by
  have hnodup : (List.filter
      (fun n => inBounds w h n && isBg n && decide (n ∉ visited))
      (neighborsOf dirs4 c)).Nodup :=
    (neighborsOf_dirs4_nodup c).filter _
  have hsub : (List.filter
      (fun n => inBounds w h n && isBg n && decide (n ∉ visited))
      (neighborsOf dirs4 c)).toFinset ⊆ grid w h \ visited := by
    intro n hn
    rw [List.mem_toFinset, List.mem_filter] at hn
    obtain ⟨-, hn⟩ := hn
    simp only [Bool.and_eq_true, decide_eq_true_eq] at hn
    rw [Finset.mem_sdiff, mem_grid]
    exact ⟨hn.1.1, hn.2⟩
  have hcard : (List.filter
      (fun n => inBounds w h n && isBg n && decide (n ∉ visited))
      (neighborsOf dirs4 c)).toFinset.card ≤ (grid w h \ visited).card :=
    Finset.card_le_card hsub
  have hlen : (List.filter
      (fun n => inBounds w h n && isBg n && decide (n ∉ visited))
      (neighborsOf dirs4 c)).toFinset.card = (List.filter
      (fun n => inBounds w h n && isBg n && decide (n ∉ visited))
      (neighborsOf dirs4 c)).length := List.toFinset_card_of_nodup hnodup
  have hdiff : grid w h \ (visited ∪ (List.filter
      (fun n => inBounds w h n && isBg n && decide (n ∉ visited))
      (neighborsOf dirs4 c)).toFinset) = (grid w h \ visited) \ (List.filter
      (fun n => inBounds w h n && isBg n && decide (n ∉ visited))
      (neighborsOf dirs4 c)).toFinset := by
    ext n
    simp only [Finset.mem_sdiff, Finset.mem_union]
    tauto
  simp only [List.length_append, List.length_cons, hdiff]
  rw [Finset.card_sdiff hsub]
  omega

/-- Truncation toward zero, as used by the JavaScript `%` operator. -/
def jsTrunc (q : ℚ) : ℤ :=
  if 0 ≤ q then ⌊q⌋ else ⌈q⌉

/-- The JavaScript remainder operator `a % b` (sign of the dividend). -/
def jsMod (a b : ℚ) : ℚ :=
  a - b * jsTrunc (a / b)

/-- The magenta predicate of `gifEncoder.ts`: HSL-based hue detection around
300° with tolerance-scaled saturation/lightness thresholds. -/
def isMagenta (r g b : ℕ) (tolerance : ℚ) : Bool :=
  let rn : ℚ := (r : ℚ) / 255
  let gn : ℚ := (g : ℚ) / 255
  let bn : ℚ := (b : ℚ) / 255
  let mx := max rn (max gn bn)
  let mn := min rn (min gn bn)
  let delta := mx - mn
  let saturationThreshold := max (15 / 100 : ℚ) (1 / 2 - tolerance / 255)
  if mx = 0 ∨ delta / mx < saturationThreshold then false
  else
    let lightnessThreshold := max (3 / 10 : ℚ) (6 / 10 - tolerance / 255)
    if (mx + mn) / 2 < lightnessThreshold then false
    else if delta = 0 then false
    else
      let hue0 : ℚ :=
        if mx = rn then 60 * jsMod ((gn - bn) / delta) 6
        else if mx = gn then 60 * ((bn - rn) / delta + 2)
        else 60 * ((rn - gn) / delta + 4)
      let hue := if hue0 < 0 then hue0 + 360 else hue0
      let hueMargin := 30 + tolerance / 5
      let minHue := 300 - hueMargin
      let maxHue := 300 + hueMargin
      if 360 < maxHue then decide (minHue ≤ hue) || decide (hue ≤ maxHue - 360)
      else decide (minHue ≤ hue) && decide (hue ≤ maxHue)

/-- The magenta-spill heuristic used by the despill pass. -/
def isMagentaSpill (r g b : ℕ) (spillThreshold : ℚ) : Bool :=
  if spillThreshold ≤ 0 then false
  else if r < 100 ∨ b < 100 then false
  else if 40 < |(r : ℤ) - (b : ℤ)| then false
  else decide (spillThreshold ≤ ((r : ℚ) + (b : ℚ)) / 2 - (g : ℚ))

/-- Cleanup options of `removeMagentaBackground`. -/
structure MagentaCleanupOptions where
  expansion : ℕ
  despill : ℚ
  neutralize : Bool
  useFloodFill : Bool
deriving DecidableEq, Repr

/-- One expansion round: every in-bounds pixel of the mask contributes its
in-bounds, not-yet-masked neighbours, which are then all marked. -/
def dilate (dirs : List (ℤ × ℤ)) (w h : ℤ) (m : Finset (ℤ × ℤ)) : Finset (ℤ × ℤ) :=
  m ∪ (m.filter fun p => inBounds w h p = true).biUnion fun q =>
    ((neighborsOf dirs q).filter fun n => inBounds w h n && decide (n ∉ m)).toFinset

/-- Applying the mask to the image: clear alpha (and RGB when neutralize) of
every in-bounds masked pixel. -/
def maskApply (w h : ℤ) (mask : Finset (ℤ × ℤ)) (neutralize : Bool) (img : Img) : Img :=
  fun p =>
    if inBounds w h p = true ∧ p ∈ mask then
      if neutralize then ⟨0, 0, 0, 0⟩ else { img p with a := 0 }
    else img p

/-- `adjacentToMask`: some in-bounds 8-neighbour is masked. -/
def adjacentToMask (w h : ℤ) (mask : Finset (ℤ × ℤ)) (q : ℤ × ℤ) : Bool :=
  (neighborsOf dirs8 q).any fun n => inBounds w h n && decide (n ∈ mask)

/-- One pixel of the despill scan: a still-opaque pixel adjacent to the mask
whose colour matches the spill heuristic is cleared and added to the mask. -/
def despillStep (w h : ℤ) (despill : ℚ) (neutralize : Bool)
    (st : Img × Finset (ℤ × ℤ)) (q : ℤ × ℤ) : Img × Finset (ℤ × ℤ) :=
  let px := st.1 q
  if px.a = 0 then st
  else if adjacentToMask w h st.2 q = false then st
  else if isMagentaSpill px.r px.g px.b despill = true then
    (fun p => if p = q then (if neutralize then ⟨0, 0, 0, 0⟩ else { px with a := 0 }) else st.1 p,
      insert q st.2)
  else st

/-- The pixel coordinates in the order of the nested `for (y) for (x)` loops. -/
def rowMajor (w h : ℤ) : List (ℤ × ℤ) :=
  (List.range h.toNat).flatMap fun y : ℕ =>
    (List.range w.toNat).map fun x : ℕ => ((x : ℤ), (y : ℤ))

/-- The despill scan over the whole image. -/
def despillPass (w h : ℤ) (despill : ℚ) (neutralize : Bool) (img : Img)
    (mask : Finset (ℤ × ℤ)) : Img × Finset (ℤ × ℤ) :=
  (rowMajor w h).foldl (despillStep w h despill neutralize) (img, mask)

/-- The final neutralize loop: zero the RGB of every transparent pixel. -/
def neutralizePass (w h : ℤ) (img : Img) : Img :=
  fun p =>
    if inBounds w h p = true ∧ (img p).a = 0 then { img p with r := 0, g := 0, b := 0 }
    else img p

/-- `applyExpansionAndDespill` of `gifEncoder.ts`: grow the mask by
`expansion` 8-connected rings, clear the masked pixels, run the despill scan,
then optionally neutralize the RGB of transparent pixels. -/
def applyExpansionAndDespill (w h : ℤ) (expansion : ℕ) (despill : ℚ) (neutralize : Bool)
    (img : Img) (mask : Finset (ℤ × ℤ)) : Img :=
  let mask1 := (dilate dirs8 w h)^[expansion] mask
  let img1 := maskApply w h mask1 neutralize img
  let img2 := if 0 < despill then (despillPass w h despill neutralize img1 mask1).1 else img1
  if neutralize then neutralizePass w h img2 else img2

/-- `removeMagentaBackground` of `gifEncoder.ts`: global replacement of all
magenta pixels when `useFloodFill = false`, otherwise flood fill from the
borders; both followed by `applyExpansionAndDespill`. -/
def removeMagentaBackground (w h : ℤ) (tolerance : ℚ) (opts : MagentaCleanupOptions)
    (img : Img) : Img :=
  if opts.useFloodFill = false then
    let mask := (grid w h).filter fun p => isMagenta (img p).r (img p).g (img p).b tolerance = true
    let img0 : Img := fun p =>
      if inBounds w h p = true ∧ isMagenta (img p).r (img p).g (img p).b tolerance = true then
        if opts.neutralize then ⟨0, 0, 0, 0⟩ else { img p with a := 0 }
      else img p
    applyExpansionAndDespill w h opts.expansion opts.despill opts.neutralize img0 mask
  else
    let isBg := fun p => isMagenta (img p).r (img p).g (img p).b tolerance
    let s := seedScan isBg (edgeCandidates w h) ([], ∅)
    let visited := floodLoop isBg w h s.1 s.2
    applyExpansionAndDespill w h opts.expansion opts.despill opts.neutralize img visited

/-- `removeWhiteBackground` of `imageProcess.ts`: flood fill from the borders
(plus an optional selection-rectangle seed scan), clearing the alpha of every
visited pixel, then an `expansion`-round 4-connected growth of the cleared
mask. -/
def removeWhiteBackground (w h : ℤ) (colorDistance : ℤ) (selection : Option Selection)
    (expansion : ℕ) (img : Img) : Img :=
  let threshold := 255 - colorDistance
  let isBg := fun p => isWhite threshold (img p).r (img p).g (img p).b
  let s0 := seedScan isBg (edgeCandidates w h) ([], ∅)
  let s1 := match selection with
    | none => s0
    | some sel => seedScan isBg (selectionCandidates sel w h) s0
  let visited := floodLoop isBg w h s1.1 s1.2
  let mask := (dilate dirs4 w h)^[expansion] visited
  fun p => if p ∈ mask then { img p with a := 0 } else img p

/-- `cropFromCenter` of `gifEncoder.ts`: identity when the source already has
the target size.  The non-identity branch goes through the canvas `drawImage`
blit, which is external to the repository; it is modelled from the spec:
pixel-for-pixel centred placement of the overlapping region, transparent
outside it. -/
def cropFromCenter (srcW srcH tW tH : ℤ) (img : Img) : Img :=
  if srcW = tW ∧ srcH = tH then img
  else
    fun p =>
      let cropW := min srcW tW
      let cropH := min srcH tH
      let sx : ℚ := (srcW : ℚ) / 2 - (cropW : ℚ) / 2
      let sy : ℚ := (srcH : ℚ) / 2 - (cropH : ℚ) / 2
      let dx : ℚ := ((tW : ℚ) - (cropW : ℚ)) / 2
      let dy : ℚ := ((tH : ℚ) - (cropH : ℚ)) / 2
      if dx ≤ (p.1 : ℚ) ∧ (p.1 : ℚ) < dx + (cropW : ℚ) ∧
          dy ≤ (p.2 : ℚ) ∧ (p.2 : ℚ) < dy + (cropH : ℚ) then
        img (⌊(p.1 : ℚ) - dx + sx⌋, ⌊(p.2 : ℚ) - dy + sy⌋)
      else ⟨0, 0, 0, 0⟩

/-- Watermark configuration (`logoSize`, `marginRight`, `marginBottom`). -/
structure WatermarkConfig where
  logoSize : ℤ
  marginRight : ℤ
  marginBottom : ℤ
deriving DecidableEq, Repr

/-- Watermark footprint rectangle. -/
structure WatermarkPosition where
  x : ℤ
  y : ℤ
  width : ℤ
  height : ℤ
deriving DecidableEq, Repr

/-- `detectWatermarkConfig`: 96×96 with 64px margins when both dimensions
exceed 1024, else 48×48 with 32px margins. -/
def detectWatermarkConfig (imageWidth imageHeight : ℤ) : WatermarkConfig :=
  if 1024 < imageWidth ∧ 1024 < imageHeight then ⟨96, 64, 64⟩
  else ⟨48, 32, 32⟩

/-- `calculateWatermarkPosition`: bottom-right placement from the margins. -/
def calculateWatermarkPosition (imageWidth imageHeight : ℤ) (config : WatermarkConfig) :
    WatermarkPosition :=
  ⟨imageWidth - config.marginRight - config.logoSize,
    imageHeight - config.marginBottom - config.logoSize,
    config.logoSize, config.logoSize⟩

/-- One RGBA pixel with rational channels, for the watermark arithmetic
(`Uint8ClampedArray` reads are bytes, which are rationals; writes clamp and
round, which `applyReverseAlphaBlending` performs explicitly). -/
structure QPixel where
  r : ℚ
  g : ℚ
  b : ℚ
  a : ℚ
deriving DecidableEq, Repr

/-- An image with rational channel values. -/
abbrev QImg := ℤ × ℤ → QPixel

/-- `ALPHA_THRESHOLD = 0.002`. -/
def ALPHA_THRESHOLD : ℚ := 2 / 1000

/-- `MAX_ALPHA = 0.99`. -/
def MAX_ALPHA : ℚ := 99 / 100

/-- `calculateAlphaMap`: per pixel, the maximum of the RGB channels of the
watermark asset, normalised to [0, 1]. -/
def calculateAlphaMap (img : Img) : ℤ × ℤ → ℚ :=
  fun p => (max (img p).r (max (img p).g (img p).b) : ℚ) / 255

/-- One channel of the reverse blend:
`Math.max(0, Math.min(255, Math.round((watermarked - alpha*255) / (1 - alpha))))`. -/
def reverseChannel (alpha watermarked : ℚ) : ℚ :=
  max 0 (min 255 ((round ((watermarked - alpha * 255) / (1 - alpha)) : ℤ) : ℚ))

/-- `applyReverseAlphaBlending`: on the watermark footprint, skip pixels whose
alpha-map entry is below `ALPHA_THRESHOLD`, cap alpha at `MAX_ALPHA`, and
reverse-blend each RGB channel. -/
def applyReverseAlphaBlending (alphaMap : ℤ × ℤ → ℚ) (pos : WatermarkPosition)
    (img : QImg) : QImg :=
  fun p =>
    if pos.x ≤ p.1 ∧ p.1 < pos.x + pos.width ∧ pos.y ≤ p.2 ∧ p.2 < pos.y + pos.height then
      let alpha := alphaMap (p.1 - pos.x, p.2 - pos.y)
      if alpha < ALPHA_THRESHOLD then img p
      else
        let alpha2 := min alpha MAX_ALPHA
        let px := img p
        ⟨reverseChannel alpha2 px.r, reverseChannel alpha2 px.g, reverseChannel alpha2 px.b,
          px.a⟩
    else img p

/-- The synthetic forward blend of the round-trip property (spec §8): the
white overlay composited onto the original with the per-pixel alpha map,
`blended = alpha*255 + (1 - alpha)*original`, on the watermark footprint. -/
def forwardAlphaBlend (alphaMap : ℤ × ℤ → ℚ) (pos : WatermarkPosition) (img : QImg) : QImg :=
  fun p =>
    if pos.x ≤ p.1 ∧ p.1 < pos.x + pos.width ∧ pos.y ≤ p.2 ∧ p.2 < pos.y + pos.height then
      let alpha := alphaMap (p.1 - pos.x, p.2 - pos.y)
      let px := img p
      ⟨alpha * 255 + (1 - alpha) * px.r, alpha * 255 + (1 - alpha) * px.g,
        alpha * 255 + (1 - alpha) * px.b, px.a⟩
    else img p

/-- A rational that is a byte value (an integer in [0, 255]). -/
def isByteValue (q : ℚ) : Prop := ∃ n : ℕ, n ≤ 255 ∧ q = (n : ℚ)

/-- State of the `GeminiWatermarkEngine` class: the lazily-built alpha-map
cache, the loaded watermark images, and the `initialized` flag (named
`inited` here). -/
structure GeminiWatermarkEngine where
  alphaMaps : ℤ → Option (ℤ × ℤ → ℚ)
  watermarkImages : ℤ → Option Img
  inited : Bool

/-- A freshly constructed engine. -/
def GeminiWatermarkEngine.new : GeminiWatermarkEngine :=
  ⟨fun _ => none, fun _ => none, false⟩

/-- `init`: no-op when already done; otherwise store the two loaded watermark
images (loading itself is external I/O, so the loaded bitmaps are taken as
arguments) and set the flag. -/
def GeminiWatermarkEngine.init (e : GeminiWatermarkEngine) (img48 img96 : Img) :
    GeminiWatermarkEngine :=
  if e.inited then e
  else
    { alphaMaps := e.alphaMaps,
      watermarkImages := fun s =>
        if s = 96 then some img96 else if s = 48 then some img48 else e.watermarkImages s,
      inited := true }

/-- `getAlphaMap`: cached map if present, else compute it from the loaded
watermark image (an error if that image was never loaded) and cache it. -/
def GeminiWatermarkEngine.getAlphaMap (e : GeminiWatermarkEngine) (size : ℤ) :
    Except String ((ℤ × ℤ → ℚ) × GeminiWatermarkEngine) :=
  match e.alphaMaps size with
  | some cached => .ok (cached, e)
  | none =>
    match e.watermarkImages size with
    | none => .error ("Watermark image for size " ++ toString size ++ " not loaded")
    | some img =>
      let am := calculateAlphaMap img
      .ok (am, { e with alphaMaps := fun s => if s = size then some am else e.alphaMaps s })

/-- `removeWatermark`: guard on the `initialized` flag, then detect the
configuration, fetch the alpha map and reverse-blend the footprint.  The
result carries the outcome, the pixel buffer after the call and the engine
state after the call; when an error is signalled the buffer is the unchanged
input. -/
def GeminiWatermarkEngine.removeWatermark (e : GeminiWatermarkEngine) (w h : ℤ)
    (img : QImg) : Except String Unit × QImg × GeminiWatermarkEngine :=
  if e.inited = false then
    (.error "Engine not initialized. Call init() first.", img, e)
  else
    let config := detectWatermarkConfig w h
    let position := calculateWatermarkPosition w h config
    match e.getAlphaMap config.logoSize with
    | .error msg => (.error msg, img, e)
    | .ok (am, e2) => (.ok (), applyReverseAlphaBlending am position img, e2)

/-- Orientation of a split line (`'h' | 'v'`). -/
inductive SplitKind where
  | h
  | v
deriving DecidableEq, Repr

/-- A split line: orientation and position as a percentage (0-100). -/
structure SplitLine where
  id : String
  type : SplitKind
  position : ℚ
deriving DecidableEq, Repr

/-- A slice region in pixel units. -/
structure SliceRegion where
  x : ℚ
  y : ℚ
  width : ℚ
  height : ℚ
deriving DecidableEq, Repr

/-- Consecutive pairs of a list: the intervals the nested loops of
`calculateRegions` walk (`breaks[i]` to `breaks[i+1]`). -/
def intervalsOf : List ℚ → List (ℚ × ℚ)
  | a :: b :: rest => (a, b) :: intervalsOf (b :: rest)
  | _ => []

/-- `calculateRegions` of `splitImage.ts`: scale the sorted horizontal and
vertical line positions, bracket them with 0 and the image extent, and emit
one region per (row interval, column interval) pair in row-major order. -/
def calculateRegions (imageWidth imageHeight : ℚ) (lines : List SplitLine) :
    List SliceRegion :=
  let hLines := List.insertionSort (· ≤ ·)
    ((lines.filter fun l => l.type = SplitKind.h).map fun l => l.position / 100 * imageHeight)
  let vLines := List.insertionSort (· ≤ ·)
    ((lines.filter fun l => l.type = SplitKind.v).map fun l => l.position / 100 * imageWidth)
  let yBreaks := 0 :: hLines ++ [imageHeight]
  let xBreaks := 0 :: vLines ++ [imageWidth]
  (intervalsOf yBreaks).flatMap fun yi =>
    (intervalsOf xBreaks).map fun xj =>
      ⟨xj.1, yi.1, xj.2 - xj.1, yi.2 - yi.1⟩

/-- Membership of a point in the half-open rectangle of a region. -/
def inRegion (r : SliceRegion) (q : ℚ × ℚ) : Prop :=
  r.x ≤ q.1 ∧ q.1 < r.x + r.width ∧ r.y ≤ q.2 ∧ q.2 < r.y + r.height

/-- C7: `detectWatermarkConfig` returns logoSize 96 with 64-pixel margins
exactly when both dimensions exceed 1024, and logoSize 48 with 32-pixel
margins otherwise; the footprint is the logoSize-square with top-left corner
(width - marginRight - logoSize, height - marginBottom - logoSize). -/
theorem claim_C7_detectWatermarkConfig (w h : ℤ) :
    (detectWatermarkConfig w h = ⟨96, 64, 64⟩ ↔ 1024 < w ∧ 1024 < h) ∧
    (detectWatermarkConfig w h = ⟨48, 32, 32⟩ ↔ ¬(1024 < w ∧ 1024 < h)) ∧
    calculateWatermarkPosition w h (detectWatermarkConfig w h) =
      ⟨w - (detectWatermarkConfig w h).marginRight - (detectWatermarkConfig w h).logoSize,
        h - (detectWatermarkConfig w h).marginBottom - (detectWatermarkConfig w h).logoSize,
        (detectWatermarkConfig w h).logoSize, (detectWatermarkConfig w h).logoSize⟩ := by
  unfold detectWatermarkConfig calculateWatermarkPosition
  by_cases hc : 1024 < w ∧ 1024 < h <;> simp [hc]

/-- C9: `cropFromCenter` is the identity when the source size already equals
the target size: the returned buffer is the input with all pixel values
unchanged. -/
theorem claim_C9_cropFromCenter_identity (img : Img) (w h : ℤ) :
    cropFromCenter w h w h img = img := by
  simp [cropFromCenter]

/-- C8: calling `removeWatermark` before `init` has completed yields the
"Engine not initialized" error and leaves the pixel buffer unchanged (the
engine state too); after `init` has completed on a fresh engine,
`removeWatermark` succeeds and in particular never raises this error. -/
theorem claim_C8_removeWatermark_init_guard (e : GeminiWatermarkEngine) (w h : ℤ)
    (img : QImg) :
    (e.inited = false →
      e.removeWatermark w h img =
        (.error "Engine not initialized. Call init() first.", img, e)) ∧
    ∀ i48 i96 : Img,
      ((GeminiWatermarkEngine.new.init i48 i96).removeWatermark w h img).1 = .ok () := by
  constructor
  · intro hflag
    simp [GeminiWatermarkEngine.removeWatermark, hflag]
  · intro i48 i96
    have hcfg : (detectWatermarkConfig w h).logoSize = 96 ∨
        (detectWatermarkConfig w h).logoSize = 48 := by
      unfold detectWatermarkConfig
      by_cases hc : 1024 < w ∧ 1024 < h <;> simp [hc]
    unfold GeminiWatermarkEngine.removeWatermark
    rcases hcfg with hs | hs <;>
      simp [GeminiWatermarkEngine.new, GeminiWatermarkEngine.init,
        GeminiWatermarkEngine.getAlphaMap, hs]

/-- Witness for C8 at a concrete engine, size and buffer. -/
theorem claim_C8_witness :
    GeminiWatermarkEngine.new.inited = false ∧
    GeminiWatermarkEngine.new.removeWatermark 10 10 (fun _ => ⟨0, 0, 0, 0⟩) =
      (.error "Engine not initialized. Call init() first.", (fun _ => ⟨0, 0, 0, 0⟩),
        GeminiWatermarkEngine.new) :=
  ⟨rfl,
    (claim_C8_removeWatermark_init_guard GeminiWatermarkEngine.new 10 10
      (fun _ => ⟨0, 0, 0, 0⟩)).1 rfl⟩

theorem reverseChannel_forward (alpha o : ℚ) (hbyte : isByteValue o)
    (h1 : alpha ≤ 99 / 100) :
    reverseChannel (min alpha MAX_ALPHA) (alpha * 255 + (1 - alpha) * o) = o := by
  obtain ⟨n, hn, rfl⟩ := hbyte
  have hmin : min alpha MAX_ALPHA = alpha := min_eq_left (by rw [MAX_ALPHA]; exact h1)
  have hne : (1 : ℚ) - alpha ≠ 0 := by
    have : alpha < 1 := lt_of_le_of_lt h1 (by norm_num)
    intro hc
    rw [sub_eq_zero] at hc
    exact absurd hc.symm (ne_of_lt this)
  unfold reverseChannel
  rw [hmin]
  have harg : (alpha * 255 + (1 - alpha) * (n : ℚ) - alpha * 255) / (1 - alpha) = (n : ℚ) := by
    field_simp
  rw [harg, round_natCast]
  have hcast : ((n : ℤ) : ℚ) = (n : ℚ) := by push_cast; ring
  rw [hcast, min_eq_right (by exact_mod_cast hn), max_eq_right (by positivity)]

theorem forward_skip_close (alpha o : ℚ) (hbyte : isByteValue o) (h0 : 0 ≤ alpha)
    (hlt : alpha < ALPHA_THRESHOLD) :
    |alpha * 255 + (1 - alpha) * o - o| ≤ 1 := by
  obtain ⟨n, hn, rfl⟩ := hbyte
  have hform : alpha * 255 + (1 - alpha) * (n : ℚ) - (n : ℚ) = alpha * (255 - n) := by ring
  have hn255 : (n : ℚ) ≤ 255 := by exact_mod_cast hn
  have hthr : alpha < 2 / 1000 := by rw [ALPHA_THRESHOLD] at hlt; exact hlt
  rw [hform, abs_of_nonneg (mul_nonneg h0 (by linarith))]
  nlinarith

/-- C2: forward alpha-blending the white overlay onto a byte-valued original
with the engine's per-pixel alpha map (all values at most 0.99) and then
applying the engine's reverse alpha blending reconstructs the original within
±1 intensity unit per channel. -/
theorem claim_C2_watermark_roundtrip (orig : QImg) (alphaMap : ℤ × ℤ → ℚ)
    (pos : WatermarkPosition) (p : ℤ × ℤ)
    (hbyte : ∀ q : ℤ × ℤ,
      isByteValue (orig q).r ∧ isByteValue (orig q).g ∧ isByteValue (orig q).b)
    (halpha : ∀ q : ℤ × ℤ, 0 ≤ alphaMap q ∧ alphaMap q ≤ 99 / 100) :
    |(applyReverseAlphaBlending alphaMap pos
        (forwardAlphaBlend alphaMap pos orig) p).r - (orig p).r| ≤ 1 ∧
    |(applyReverseAlphaBlending alphaMap pos
        (forwardAlphaBlend alphaMap pos orig) p).g - (orig p).g| ≤ 1 ∧
    |(applyReverseAlphaBlending alphaMap pos
        (forwardAlphaBlend alphaMap pos orig) p).b - (orig p).b| ≤ 1 := by
  obtain ⟨ha0, ha1⟩ := halpha (p.1 - pos.x, p.2 - pos.y)
  obtain ⟨hr, hg, hb⟩ := hbyte p
  by_cases hin : pos.x ≤ p.1 ∧ p.1 < pos.x + pos.width ∧ pos.y ≤ p.2 ∧ p.2 < pos.y + pos.height
  · by_cases hskip : alphaMap (p.1 - pos.x, p.2 - pos.y) < ALPHA_THRESHOLD
    · simp only [applyReverseAlphaBlending, forwardAlphaBlend, hin, and_self, and_true,
        true_and, if_true, if_pos hskip]
      exact ⟨forward_skip_close _ _ hr ha0 hskip, forward_skip_close _ _ hg ha0 hskip,
        forward_skip_close _ _ hb ha0 hskip⟩
    · simp only [applyReverseAlphaBlending, forwardAlphaBlend, hin, and_self, and_true,
        true_and, if_true, if_neg hskip]
      rw [reverseChannel_forward _ _ hr ha1, reverseChannel_forward _ _ hg ha1,
        reverseChannel_forward _ _ hb ha1]
      norm_num
  · simp only [applyReverseAlphaBlending, forwardAlphaBlend, if_neg hin]
    norm_num

/-- Witness for C2 at a concrete original, alpha map and footprint. -/
theorem claim_C2_witness :
    (∀ q : ℤ × ℤ, 0 ≤ (fun _ : ℤ × ℤ => (1 : ℚ) / 2) q ∧
      (fun _ : ℤ × ℤ => (1 : ℚ) / 2) q ≤ 99 / 100) ∧
    |(applyReverseAlphaBlending (fun _ => 1 / 2) ⟨0, 0, 48, 48⟩
        (forwardAlphaBlend (fun _ => 1 / 2) ⟨0, 0, 48, 48⟩
          (fun _ => ⟨100, 50, 25, 255⟩)) (3, 4)).r -
      ((fun _ : ℤ × ℤ => (⟨100, 50, 25, 255⟩ : QPixel)) (3, 4)).r| ≤ 1 :=
  ⟨fun _ => ⟨by norm_num, by norm_num⟩,
    (claim_C2_watermark_roundtrip (fun _ => ⟨100, 50, 25, 255⟩) (fun _ => 1 / 2)
      ⟨0, 0, 48, 48⟩ (3, 4)
      (fun _ => ⟨⟨100, by norm_num, by norm_num⟩, ⟨50, by norm_num, by norm_num⟩,
        ⟨25, by norm_num, by norm_num⟩⟩)
      (fun _ => ⟨by norm_num, by norm_num⟩)).1⟩

theorem intervalsOf_fst_mem : ∀ {l : List ℚ} {p : ℚ × ℚ}, p ∈ intervalsOf l → p.1 ∈ l
  | a :: b :: rest, p, hp => by
    rw [intervalsOf] at hp
    rcases List.mem_cons.mp hp with hp | hp
    · rw [hp]; exact List.mem_cons_self _ _
    · exact List.mem_cons_of_mem _ (intervalsOf_fst_mem hp)
  | [], p, hp => by simp [intervalsOf] at hp
  | [a], p, hp => by simp [intervalsOf] at hp

theorem intervalsOf_snd_mem : ∀ {l : List ℚ} {p : ℚ × ℚ}, p ∈ intervalsOf l → p.2 ∈ l
  | a :: b :: rest, p, hp => by
    rw [intervalsOf] at hp
    rcases List.mem_cons.mp hp with hp | hp
    · rw [hp]; exact List.mem_cons_of_mem _ (List.mem_cons_self _ _)
    · exact List.mem_cons_of_mem _ (intervalsOf_snd_mem hp)
  | [], p, hp => by simp [intervalsOf] at hp
  | [a], p, hp => by simp [intervalsOf] at hp

theorem intervalsOf_le : ∀ {l : List ℚ}, l.Pairwise (· ≤ ·) →
    ∀ p ∈ intervalsOf l, p.1 ≤ p.2
  | a :: b :: rest, hl, p, hp => by
    rw [intervalsOf] at hp
    rcases List.mem_cons.mp hp with hp | hp
    · rw [hp]
      exact (List.pairwise_cons.mp hl).1 b (List.mem_cons_self _ _)
    · exact intervalsOf_le (List.Pairwise.of_cons hl) p hp
  | [], _, p, hp => by simp [intervalsOf] at hp
  | [a], _, p, hp => by simp [intervalsOf] at hp

theorem intervalsOf_pairwise : ∀ {l : List ℚ}, l.Pairwise (· ≤ ·) →
    (intervalsOf l).Pairwise fun p q => p.2 ≤ q.1
  | a :: b :: rest, hl => by
    rw [intervalsOf, List.pairwise_cons]
    refine ⟨?_, intervalsOf_pairwise (List.Pairwise.of_cons hl)⟩
    intro q hq
    have hq1 : q.1 ∈ b :: rest := intervalsOf_fst_mem hq
    rcases List.mem_cons.mp hq1 with hq1 | hq1
    · rw [hq1]
    · exact (List.pairwise_cons.mp (List.Pairwise.of_cons hl)).1 q.1 hq1
  | [], _ => List.Pairwise.nil
  | [a], _ => List.Pairwise.nil

theorem intervalsOf_cover : ∀ (l : List ℚ) (a B t : ℚ), a ≤ t → t < B →
    ∃ p ∈ intervalsOf (a :: l ++ [B]), p.1 ≤ t ∧ t < p.2 := by
  intro l
  induction l with
  | nil =>
    intro a B t hat htB
    exact ⟨(a, B), by simp [intervalsOf], hat, htB⟩
  | cons b rest ih =>
    intro a B t hat htB
    by_cases htb : t < b
    · refine ⟨(a, b), ?_, hat, htb⟩
      simp [intervalsOf]
    · obtain ⟨p, hp, hpt⟩ := ih b B t (le_of_not_lt htb) htB
      exact ⟨p, by simp [intervalsOf] at hp ⊢; exact Or.inr hp, hpt⟩

theorem sum_flatMap_rat {α : Type} (l : List α) (f : α → List ℚ) :
    (l.flatMap f).sum = (l.map fun a => (f a).sum).sum := by
  induction l with
  | nil => simp
  | cons a rest ih => simp [List.flatMap_cons, ih]

theorem intervalsOf_sum : ∀ (l : List ℚ) (a B : ℚ),
    ((intervalsOf (a :: l ++ [B])).map fun p => p.2 - p.1).sum = B - a := by
  intro l
  induction l with
  | nil =>
    intro a B
    simp [intervalsOf]
  | cons b rest ih =>
    intro a B
    have : intervalsOf (a :: (b :: rest) ++ [B]) = (a, b) :: intervalsOf (b :: rest ++ [B]) := by
      simp [intervalsOf]
    rw [this, List.map_cons, List.sum_cons, ih b B]
    ring

theorem sum_map_flatMap {α β : Type} (l : List α) (f : α → List β) (g : β → ℚ) :
    ((l.flatMap f).map g).sum = (l.map fun a => ((f a).map g).sum).sum := by
  induction l with
  | nil => simp
  | cons a rest ih => simp [List.flatMap_cons, ih]

theorem sum_map_mul_const {α : Type} (l : List α) (f : α → ℚ) (c : ℚ) :
    (l.map fun x => f x * c).sum = (l.map f).sum * c := by
  induction l with
  | nil => simp
  | cons a rest ih =>
    simp only [List.map_cons, List.sum_cons, ih]
    ring

theorem breaks_pairwise {B : ℚ} {l : List ℚ} (hsorted : List.Sorted (· ≤ ·) l)
    (hmem : ∀ x ∈ l, 0 ≤ x ∧ x ≤ B) (hB : 0 ≤ B) :
    (0 :: l ++ [B]).Pairwise (· ≤ ·) := by
  refine List.Pairwise.cons ?_ ?_
  · intro x hx
    rcases List.mem_append.mp hx with hx | hx
    · exact (hmem x hx).1
    · rw [List.mem_singleton.mp hx]; exact hB
  · show (l ++ [B]).Pairwise (· ≤ ·)
    rw [List.pairwise_append]
    refine ⟨hsorted, List.pairwise_singleton _ _, ?_⟩
    intro x hx b hb
    rw [List.mem_singleton.mp hb]
    exact (hmem x hx).2

theorem breaks_mem_bounds {B : ℚ} {l : List ℚ} (hmem : ∀ x ∈ l, 0 ≤ x ∧ x ≤ B)
    (hB : 0 ≤ B) : ∀ x ∈ (0 :: l ++ [B]), 0 ≤ x ∧ x ≤ B := by
  intro x hx
  rcases List.mem_cons.mp hx with hx | hx
  · rw [hx]; exact ⟨le_refl 0, hB⟩
  rcases List.mem_append.mp hx with hx | hx
  · exact hmem x hx
  · rw [List.mem_singleton.mp hx]; exact ⟨hB, le_refl B⟩

theorem scaled_mem_bounds {E : ℚ} (hE : 0 ≤ E) {lines : List SplitLine} (k : SplitKind)
    (hpos : ∀ l ∈ lines, 0 ≤ l.position ∧ l.position ≤ 100) :
    ∀ x ∈ List.insertionSort (· ≤ ·)
      ((lines.filter fun l => l.type = k).map fun l => l.position / 100 * E),
      0 ≤ x ∧ x ≤ E := by
  intro x hx
  rw [(List.perm_insertionSort _ _).mem_iff] at hx
  obtain ⟨l, hl, rfl⟩ := List.mem_map.mp hx
  have hl' := hpos l (List.mem_of_mem_filter hl)
  constructor
  · exact mul_nonneg (div_nonneg hl'.1 (by norm_num)) hE
  · calc l.position / 100 * E ≤ 1 * E :=
        mul_le_mul_of_nonneg_right ((div_le_one (by norm_num)).mpr hl'.2) hE
    _ = E := one_mul E

theorem tiling_of_breaks (W H : ℚ) (xs ys : List ℚ)
    (hxP : (0 :: xs ++ [W]).Pairwise (· ≤ ·))
    (hyP : (0 :: ys ++ [H]).Pairwise (· ≤ ·))
    (hxmem : ∀ x ∈ (0 :: xs ++ [W]), 0 ≤ x ∧ x ≤ W)
    (hymem : ∀ x ∈ (0 :: ys ++ [H]), 0 ≤ x ∧ x ≤ H) :
    (∀ r ∈ (intervalsOf (0 :: ys ++ [H])).flatMap fun yi =>
        (intervalsOf (0 :: xs ++ [W])).map fun xj =>
          (⟨xj.1, yi.1, xj.2 - xj.1, yi.2 - yi.1⟩ : SliceRegion),
      0 ≤ r.width ∧ 0 ≤ r.height) ∧
    ((intervalsOf (0 :: ys ++ [H])).flatMap fun yi =>
        (intervalsOf (0 :: xs ++ [W])).map fun xj =>
          (⟨xj.1, yi.1, xj.2 - xj.1, yi.2 - yi.1⟩ : SliceRegion)).Pairwise
      (fun r s => ∀ q : ℚ × ℚ, ¬(inRegion r q ∧ inRegion s q)) ∧
    (∀ q : ℚ × ℚ,
      (∃ r ∈ (intervalsOf (0 :: ys ++ [H])).flatMap fun yi =>
          (intervalsOf (0 :: xs ++ [W])).map fun xj =>
            (⟨xj.1, yi.1, xj.2 - xj.1, yi.2 - yi.1⟩ : SliceRegion), inRegion r q) ↔
        0 ≤ q.1 ∧ q.1 < W ∧ 0 ≤ q.2 ∧ q.2 < H) ∧
    (((intervalsOf (0 :: ys ++ [H])).flatMap fun yi =>
        (intervalsOf (0 :: xs ++ [W])).map fun xj =>
          (⟨xj.1, yi.1, xj.2 - xj.1, yi.2 - yi.1⟩ : SliceRegion)).map
      fun r => r.width * r.height).sum = W * H := by
  refine ⟨?_, ?_, ?_, ?_⟩
  · intro r hr
    rw [List.mem_flatMap] at hr
    obtain ⟨yi, hyi, hr⟩ := hr
    rw [List.mem_map] at hr
    obtain ⟨xj, hxj, rfl⟩ := hr
    exact ⟨sub_nonneg.mpr (intervalsOf_le hxP xj hxj),
      sub_nonneg.mpr (intervalsOf_le hyP yi hyi)⟩
  · rw [List.pairwise_flatMap]
    constructor
    · intro yi _
      rw [List.pairwise_map]
      refine (intervalsOf_pairwise hxP).imp ?_
      intro xj xj' hle q hq
      obtain ⟨hq1, hq2⟩ := hq
      simp only [inRegion] at hq1 hq2
      have h1 := hq1.2.1
      have h2 := hq2.1
      linarith
    · refine (intervalsOf_pairwise hyP).imp ?_
      intro yi yi' hle r hr s hs q hq
      rw [List.mem_map] at hr hs
      obtain ⟨xj, _, rfl⟩ := hr
      obtain ⟨xj', _, rfl⟩ := hs
      obtain ⟨hq1, hq2⟩ := hq
      simp only [inRegion] at hq1 hq2
      have h1 := hq1.2.2.2
      have h2 := hq2.2.2.1
      linarith
  · intro q
    constructor
    · rintro ⟨r, hr, hq⟩
      rw [List.mem_flatMap] at hr
      obtain ⟨yi, hyi, hr⟩ := hr
      rw [List.mem_map] at hr
      obtain ⟨xj, hxj, rfl⟩ := hr
      simp only [inRegion] at hq
      obtain ⟨ha, hb, hc, hd⟩ := hq
      have hx1 := (hxmem xj.1 (intervalsOf_fst_mem hxj)).1
      have hx2 := (hxmem xj.2 (intervalsOf_snd_mem hxj)).2
      have hy1 := (hymem yi.1 (intervalsOf_fst_mem hyi)).1
      have hy2 := (hymem yi.2 (intervalsOf_snd_mem hyi)).2
      exact ⟨by linarith, by linarith, by linarith, by linarith⟩
    · rintro ⟨hq1, hq2, hq3, hq4⟩
      obtain ⟨xj, hxj, hxjt⟩ := intervalsOf_cover xs 0 W q.1 hq1 hq2
      obtain ⟨yi, hyi, hyit⟩ := intervalsOf_cover ys 0 H q.2 hq3 hq4
      refine ⟨⟨xj.1, yi.1, xj.2 - xj.1, yi.2 - yi.1⟩, ?_, ?_⟩
      · rw [List.mem_flatMap]
        exact ⟨yi, hyi, List.mem_map.mpr ⟨xj, hxj, rfl⟩⟩
      · simp only [inRegion]
        refine ⟨hxjt.1, ?_, hyit.1, ?_⟩
        · linarith [hxjt.2]
        · linarith [hyit.2]
  · rw [sum_map_flatMap]
    have hinner : ∀ yi : ℚ × ℚ,
        (((intervalsOf (0 :: xs ++ [W])).map fun xj =>
          (⟨xj.1, yi.1, xj.2 - xj.1, yi.2 - yi.1⟩ : SliceRegion)).map
            fun r => r.width * r.height).sum = W * (yi.2 - yi.1) := by
      intro yi
      rw [List.map_map]
      have hfun : ((fun r : SliceRegion => r.width * r.height) ∘ fun xj : ℚ × ℚ =>
          (⟨xj.1, yi.1, xj.2 - xj.1, yi.2 - yi.1⟩ : SliceRegion)) =
          fun xj : ℚ × ℚ => (xj.2 - xj.1) * (yi.2 - yi.1) := rfl
      rw [hfun, sum_map_mul_const, intervalsOf_sum]
      ring
    simp only [hinner]
    have hswap : (fun yi : ℚ × ℚ => W * (yi.2 - yi.1)) =
        fun yi : ℚ × ℚ => (yi.2 - yi.1) * W := by
      funext yi
      ring
    rw [hswap, sum_map_mul_const, intervalsOf_sum]
    ring

/-- C1: for every image size and split-line list with positions in [0, 100],
the regions returned by `calculateRegions` tile the half-open rectangle
`[0, width) × [0, height)`: all region dimensions are non-negative, distinct
regions are disjoint, the union of the regions is exactly the rectangle, and
the areas sum to `width * height`. -/
theorem claim_C1_calculateRegions_tiling (w h : ℕ) (lines : List SplitLine)
    (hpos : ∀ l ∈ lines, 0 ≤ l.position ∧ l.position ≤ 100) :
    (∀ r ∈ calculateRegions (w : ℚ) (h : ℚ) lines, 0 ≤ r.width ∧ 0 ≤ r.height) ∧
    (calculateRegions (w : ℚ) (h : ℚ) lines).Pairwise
      (fun r s => ∀ q : ℚ × ℚ, ¬(inRegion r q ∧ inRegion s q)) ∧
    (∀ q : ℚ × ℚ,
      (∃ r ∈ calculateRegions (w : ℚ) (h : ℚ) lines, inRegion r q) ↔
        0 ≤ q.1 ∧ q.1 < (w : ℚ) ∧ 0 ≤ q.2 ∧ q.2 < (h : ℚ)) ∧
    ((calculateRegions (w : ℚ) (h : ℚ) lines).map fun r => r.width * r.height).sum
      = (w : ℚ) * (h : ℚ) := by
  have hW : (0 : ℚ) ≤ (w : ℚ) := Nat.cast_nonneg w
  have hH : (0 : ℚ) ≤ (h : ℚ) := Nat.cast_nonneg h
  have hvsb := scaled_mem_bounds hW SplitKind.v hpos
  have hhsb := scaled_mem_bounds hH SplitKind.h hpos
  have hxP := breaks_pairwise (List.sorted_insertionSort _ _) hvsb hW
  have hyP := breaks_pairwise (List.sorted_insertionSort _ _) hhsb hH
  have hxmem := breaks_mem_bounds hvsb hW
  have hymem := breaks_mem_bounds hhsb hH
  exact tiling_of_breaks (w : ℚ) (h : ℚ) _ _ hxP hyP hxmem hymem

/-- Witness for C1: one horizontal line at 50% on a 2×2 image. -/
theorem claim_C1_witness :
    (∀ l ∈ [(⟨"a", SplitKind.h, 50⟩ : SplitLine)], 0 ≤ l.position ∧ l.position ≤ 100) ∧
    ((calculateRegions ((2 : ℕ) : ℚ) ((2 : ℕ) : ℚ)
        [(⟨"a", SplitKind.h, 50⟩ : SplitLine)]).map
      fun r => r.width * r.height).sum = ((2 : ℕ) : ℚ) * ((2 : ℕ) : ℚ) :=
  ⟨fun l hl => by rw [List.mem_singleton.mp hl]; constructor <;> norm_num,
    (claim_C1_calculateRegions_tiling 2 2 [⟨"a", SplitKind.h, 50⟩]
      (fun l hl => by rw [List.mem_singleton.mp hl]; constructor <;> norm_num)).2.2.2⟩

theorem floodLoop_closed (isBg : ℤ × ℤ → Bool) (w h : ℤ) (P : ℤ × ℤ → Prop)
    (hclosed : ∀ c n, P c → n ∈ neighborsOf dirs4 c → isBg n = true → P n) :
    ∀ (queue : List (ℤ × ℤ)) (visited : Finset (ℤ × ℤ)),
      (∀ c ∈ queue, P c) → (∀ v ∈ visited, P v) →
      ∀ v ∈ floodLoop isBg w h queue visited, P v := by
  intro queue visited
  induction queue, visited using floodLoop.induct isBg w h with
  | case1 visited =>
    intro _ hv
    rw [floodLoop]
    exact hv
  | case2 visited c rest ns ih =>
    intro hq hv
    rw [floodLoop]
    refine ih ?_ ?_
    · intro x hx
      rcases List.mem_append.mp hx with hx | hx
      · exact hq x (List.mem_cons_of_mem _ hx)
      · have hx' : x ∈ List.filter
            (fun n => inBounds w h n && isBg n && decide (n ∉ visited))
            (neighborsOf dirs4 c) := hx
        rw [List.mem_filter] at hx'
        obtain ⟨hmemn, hcond⟩ := hx'
        simp only [Bool.and_eq_true, decide_eq_true_eq] at hcond
        exact hclosed c x (hq c (List.mem_cons_self _ _)) hmemn hcond.1.2
    · intro x hx
      rcases Finset.mem_union.mp hx with hx | hx
      · exact hv x hx
      · have hx' : x ∈ (List.filter
            (fun n => inBounds w h n && isBg n && decide (n ∉ visited))
            (neighborsOf dirs4 c)).toFinset := hx
        rw [List.mem_toFinset, List.mem_filter] at hx'
        obtain ⟨hmemn, hcond⟩ := hx'
        simp only [Bool.and_eq_true, decide_eq_true_eq] at hcond
        exact hclosed c x (hq c (List.mem_cons_self _ _)) hmemn hcond.1.2

theorem seedScan_spec (isBg : ℤ × ℤ → Bool) :
    ∀ (cands : List (ℤ × ℤ)) (init : List (ℤ × ℤ) × Finset (ℤ × ℤ)),
      (∀ c ∈ (seedScan isBg cands init).1, c ∈ init.1 ∨ (c ∈ cands ∧ isBg c = true)) ∧
      (∀ v ∈ (seedScan isBg cands init).2, v ∈ init.2 ∨ (v ∈ cands ∧ isBg v = true))
  | [], init => by
    constructor <;> intro c hc <;> exact Or.inl hc
  | p :: rest, init => by
    have hstep : seedScan isBg (p :: rest) init = seedScan isBg rest
        (if isBg p && decide (p ∉ init.2) then (init.1 ++ [p], insert p init.2) else init) := by
      rw [seedScan, seedScan, List.foldl_cons]
    rw [hstep]
    by_cases hcond : (isBg p && decide (p ∉ init.2)) = true
    · rw [if_pos hcond]
      simp only [Bool.and_eq_true, decide_eq_true_eq] at hcond
      constructor
      · intro c hc
        rcases (seedScan_spec isBg rest _).1 c hc with hc | hc
        · rcases List.mem_append.mp hc with hc | hc
          · exact Or.inl hc
          · rw [List.mem_singleton.mp hc]
            exact Or.inr ⟨List.mem_cons_self _ _, hcond.1⟩
        · exact Or.inr ⟨List.mem_cons_of_mem _ hc.1, hc.2⟩
      · intro v hv
        rcases (seedScan_spec isBg rest _).2 v hv with hv | hv
        · rcases Finset.mem_insert.mp hv with hv | hv
          · rw [hv]
            exact Or.inr ⟨List.mem_cons_self _ _, hcond.1⟩
          · exact Or.inl hv
        · exact Or.inr ⟨List.mem_cons_of_mem _ hv.1, hv.2⟩
    · rw [if_neg hcond]
      constructor
      · intro c hc
        rcases (seedScan_spec isBg rest init).1 c hc with hc | hc
        · exact Or.inl hc
        · exact Or.inr ⟨List.mem_cons_of_mem _ hc.1, hc.2⟩
      · intro v hv
        rcases (seedScan_spec isBg rest init).2 v hv with hv | hv
        · exact Or.inl hv
        · exact Or.inr ⟨List.mem_cons_of_mem _ hv.1, hv.2⟩

theorem edgeCandidates_border {w h : ℤ} {c : ℤ × ℤ} (hc : c ∈ edgeCandidates w h) :
    c.2 = 0 ∨ c.2 = h - 1 ∨ c.1 = 0 ∨ c.1 = w - 1 := by
  rw [edgeCandidates] at hc
  rcases List.mem_append.mp hc with hc | hc <;>
    · rw [List.mem_flatMap] at hc
      obtain ⟨x, _, hx⟩ := hc
      simp only [List.mem_cons, List.not_mem_nil, or_false] at hx
      rcases hx with hx | hx <;> rw [hx] <;> simp

theorem flood_avoids_island (isBg : ℤ × ℤ → Bool) (w h : ℤ) (S : Finset (ℤ × ℤ))
    (hnb : ∀ p ∈ S, p.1 ≠ 0 ∧ p.1 ≠ w - 1 ∧ p.2 ≠ 0 ∧ p.2 ≠ h - 1)
    (hsur : ∀ p ∈ S, ∀ n ∈ neighborsOf dirs4 p, n ∉ S → isBg n = false) :
    ∀ p ∈ S, p ∉ floodLoop isBg w h (seedScan isBg (edgeCandidates w h) ([], ∅)).1
      (seedScan isBg (edgeCandidates w h) ([], ∅)).2 := by
  intro p hp hmem
  have hclosed : ∀ c n, (isBg c = true ∧ c ∉ S) → n ∈ neighborsOf dirs4 c →
      isBg n = true → isBg n = true ∧ n ∉ S := by
    intro c n hc hn hbg
    refine ⟨hbg, fun hnS => ?_⟩
    have hcn : c ∈ neighborsOf dirs4 n := neighborsOf_dirs4_symm.mp hn
    have := hsur n hnS c hcn hc.2
    rw [hc.1] at this
    exact absurd this (by simp)
  have hqseeds : ∀ c ∈ (seedScan isBg (edgeCandidates w h) ([], ∅)).1,
      isBg c = true ∧ c ∉ S := by
    intro c hc
    rcases (seedScan_spec isBg (edgeCandidates w h) ([], ∅)).1 c hc with hc | hc
    · exact absurd hc (List.not_mem_nil c)
    · refine ⟨hc.2, fun hcS => ?_⟩
      have hb := edgeCandidates_border hc.1
      have := hnb c hcS
      tauto
  have hvseeds : ∀ v ∈ (seedScan isBg (edgeCandidates w h) ([], ∅)).2,
      isBg v = true ∧ v ∉ S := by
    intro v hv
    rcases (seedScan_spec isBg (edgeCandidates w h) ([], ∅)).2 v hv with hv | hv
    · exact absurd hv (Finset.not_mem_empty v)
    · refine ⟨hv.2, fun hvS => ?_⟩
      have hb := edgeCandidates_border hv.1
      have := hnb v hvS
      tauto
  exact (floodLoop_closed isBg w h (fun c => isBg c = true ∧ c ∉ S) hclosed _ _
    hqseeds hvseeds p hmem).2 hp

/-- C3: a connected interior island that matches the background predicate but
is fully surrounded by non-matching pixels (hence not 4-connected to any
border pixel) keeps its original alpha under flood-fill-mode background
removal: `removeWhiteBackground` with no selection and expansion 0, and
`removeMagentaBackground` with its default cleanup options
(`useFloodFill = true`, expansion 0, despill 0, neutralize false). -/
theorem claim_C3_floodfill_containment (img : Img) (w h : ℤ) (colorDistance : ℤ)
    (tolerance : ℚ) (S : Finset (ℤ × ℤ))
    (hnb : ∀ p ∈ S, p.1 ≠ 0 ∧ p.1 ≠ w - 1 ∧ p.2 ≠ 0 ∧ p.2 ≠ h - 1) :
    ((∀ p ∈ S, isWhite (255 - colorDistance) (img p).r (img p).g (img p).b = true) →
      (∀ p ∈ S, ∀ n ∈ neighborsOf dirs4 p, n ∉ S →
        isWhite (255 - colorDistance) (img n).r (img n).g (img n).b = false) →
      ∀ p ∈ S, ((removeWhiteBackground w h colorDistance none 0 img) p).a = (img p).a) ∧
    ((∀ p ∈ S, isMagenta (img p).r (img p).g (img p).b tolerance = true) →
      (∀ p ∈ S, ∀ n ∈ neighborsOf dirs4 p, n ∉ S →
        isMagenta (img n).r (img n).g (img n).b tolerance = false) →
      ∀ p ∈ S, ((removeMagentaBackground w h tolerance ⟨0, 0, false, true⟩ img) p).a
        = (img p).a) := by
  constructor
  · intro hmatch hsur p hp
    have hisland := flood_avoids_island
      (fun q => isWhite (255 - colorDistance) (img q).r (img q).g (img q).b) w h S hnb
      hsur p hp
    show (if p ∈ (dilate dirs4 w h)^[0] (floodLoop _ w h _ _) then
        { img p with a := 0 } else img p).a = (img p).a
    rw [Function.iterate_zero_apply, if_neg hisland]
  · intro hmatch hsur p hp
    have hisland := flood_avoids_island
      (fun q => isMagenta (img q).r (img q).g (img q).b tolerance) w h S hnb
      hsur p hp
    show (applyExpansionAndDespill w h 0 0 false img (floodLoop _ w h _ _) p).a = (img p).a
    unfold applyExpansionAndDespill
    simp only [lt_irrefl, if_false, Bool.false_eq_true, Function.iterate_zero_apply]
    rw [maskApply, if_neg]
    intro hcontra
    exact hisland hcontra.2

/-- Witness for C3: a lone white (and magenta) island pixel at the centre of a
5×5 image whose other pixels are black. -/
theorem claim_C3_witness :
    (∀ p ∈ ({((2 : ℤ), (2 : ℤ))} : Finset (ℤ × ℤ)),
      p.1 ≠ 0 ∧ p.1 ≠ (5 : ℤ) - 1 ∧ p.2 ≠ 0 ∧ p.2 ≠ (5 : ℤ) - 1) ∧
    (∀ p ∈ ({((2 : ℤ), (2 : ℤ))} : Finset (ℤ × ℤ)),
      isWhite (255 - 30)
        ((fun q : ℤ × ℤ => if q = (2, 2) then (⟨255, 255, 255, 255⟩ : Pixel)
          else ⟨0, 0, 0, 255⟩) p).r
        ((fun q : ℤ × ℤ => if q = (2, 2) then (⟨255, 255, 255, 255⟩ : Pixel)
          else ⟨0, 0, 0, 255⟩) p).g
        ((fun q : ℤ × ℤ => if q = (2, 2) then (⟨255, 255, 255, 255⟩ : Pixel)
          else ⟨0, 0, 0, 255⟩) p).b = true) ∧
    ∀ p ∈ ({((2 : ℤ), (2 : ℤ))} : Finset (ℤ × ℤ)),
      ((removeWhiteBackground 5 5 30 none 0
        (fun q : ℤ × ℤ => if q = (2, 2) then (⟨255, 255, 255, 255⟩ : Pixel)
          else ⟨0, 0, 0, 255⟩)) p).a =
      ((fun q : ℤ × ℤ => if q = (2, 2) then (⟨255, 255, 255, 255⟩ : Pixel)
        else ⟨0, 0, 0, 255⟩) p).a :=
  ⟨by decide, by decide,
    (claim_C3_floodfill_containment
      (fun q : ℤ × ℤ => if q = (2, 2) then (⟨255, 255, 255, 255⟩ : Pixel)
        else ⟨0, 0, 0, 255⟩) 5 5 30 30 {((2 : ℤ), (2 : ℤ))} (by decide)).1
      (by decide) (by decide)⟩

theorem despillStep_alpha_zero (w h : ℤ) (d : ℚ) (nz : Bool) (st : Img × Finset (ℤ × ℤ))
    (q p : ℤ × ℤ) (hz : (st.1 p).a = 0) : ((despillStep w h d nz st q).1 p).a = 0 := by
  rw [despillStep]
  split
  · exact hz
  · split
    · exact hz
    · split
      · dsimp only
        by_cases hpq : p = q
        · rw [if_pos hpq]
          cases nz <;> simp
        · rw [if_neg hpq]
          exact hz
      · exact hz

theorem despillFold_alpha_zero (w h : ℤ) (d : ℚ) (nz : Bool) :
    ∀ (l : List (ℤ × ℤ)) (st : Img × Finset (ℤ × ℤ)) (p : ℤ × ℤ), (st.1 p).a = 0 →
      ((l.foldl (despillStep w h d nz) st).1 p).a = 0
  | [], _, _, hz => hz
  | q :: rest, st, p, hz => by
    rw [List.foldl_cons]
    exact despillFold_alpha_zero w h d nz rest _ p (despillStep_alpha_zero w h d nz st q p hz)

theorem maskApply_alpha_zero (w h : ℤ) (m : Finset (ℤ × ℤ)) (nz : Bool) (img : Img)
    (p : ℤ × ℤ) (hz : (img p).a = 0) : ((maskApply w h m nz img) p).a = 0 := by
  rw [maskApply]
  dsimp only
  split
  · split <;> rfl
  · exact hz

theorem maskApply_mem_alpha (w h : ℤ) (m : Finset (ℤ × ℤ)) (nz : Bool) (img : Img)
    (p : ℤ × ℤ) (hin : inBounds w h p = true) (hm : p ∈ m) :
    ((maskApply w h m nz img) p).a = 0 := by
  rw [maskApply]
  dsimp only
  rw [if_pos ⟨hin, hm⟩]
  split <;> rfl

theorem neutralizePass_alpha (w h : ℤ) (img : Img) (p : ℤ × ℤ) :
    ((neutralizePass w h img) p).a = (img p).a := by
  rw [neutralizePass]
  dsimp only
  split <;> rfl

theorem subset_dilate (dirs : List (ℤ × ℤ)) (w h : ℤ) (m : Finset (ℤ × ℤ)) :
    m ⊆ dilate dirs w h m := by
  rw [dilate]
  exact Finset.subset_union_left

theorem subset_dilate_iterate (dirs : List (ℤ × ℤ)) (w h : ℤ) (m : Finset (ℤ × ℤ)) :
    ∀ k : ℕ, m ⊆ (dilate dirs w h)^[k] m := by
  intro k
  induction k with
  | zero => simp
  | succ k ih =>
    rw [Function.iterate_succ_apply']
    exact ih.trans (subset_dilate dirs w h _)

theorem applyExpansionAndDespill_alpha_zero (w h : ℤ) (expansion : ℕ) (d : ℚ) (nz : Bool)
    (img : Img) (m : Finset (ℤ × ℤ)) (p : ℤ × ℤ) (hz : (img p).a = 0) :
    ((applyExpansionAndDespill w h expansion d nz img m) p).a = 0 := by
  rw [applyExpansionAndDespill]
  have h1 : ((maskApply w h ((dilate dirs8 w h)^[expansion] m) nz img) p).a = 0 :=
    maskApply_alpha_zero w h _ nz img p hz
  split
  · rw [neutralizePass_alpha]
    split
    · exact despillFold_alpha_zero w h d nz _ _ p h1
    · exact h1
  · split
    · exact despillFold_alpha_zero w h d nz _ _ p h1
    · exact h1

/-- C4: with `useFloodFill = false`, `removeMagentaBackground` sets alpha to 0
for every in-bounds pixel matching the magenta predicate, regardless of
whether it is connected to the border. -/
theorem claim_C4_global_replacement (img : Img) (w h : ℤ) (tolerance : ℚ)
    (opts : MagentaCleanupOptions) (hff : opts.useFloodFill = false) (p : ℤ × ℤ)
    (hin : inBounds w h p = true)
    (hmag : isMagenta (img p).r (img p).g (img p).b tolerance = true) :
    ((removeMagentaBackground w h tolerance opts img) p).a = 0 := by
  rw [removeMagentaBackground]
  rw [if_pos hff]
  dsimp only
  apply applyExpansionAndDespill_alpha_zero
  rw [if_pos ⟨hin, hmag⟩]
  split <;> rfl

/-- Witness for C4: a single interior magenta pixel in a 3×3 black image,
disconnected from the border. -/
theorem claim_C4_witness :
    (MagentaCleanupOptions.useFloodFill ⟨0, 0, false, false⟩ = false) ∧
    inBounds 3 3 (1, 1) = true ∧
    isMagenta ((fun q : ℤ × ℤ => if q = (1, 1) then (⟨200, 0, 255, 255⟩ : Pixel)
      else ⟨0, 0, 0, 255⟩) (1, 1)).r
      ((fun q : ℤ × ℤ => if q = (1, 1) then (⟨200, 0, 255, 255⟩ : Pixel)
        else ⟨0, 0, 0, 255⟩) (1, 1)).g
      ((fun q : ℤ × ℤ => if q = (1, 1) then (⟨200, 0, 255, 255⟩ : Pixel)
        else ⟨0, 0, 0, 255⟩) (1, 1)).b 30 = true ∧
    ((removeMagentaBackground 3 3 30 ⟨0, 0, false, false⟩
      (fun q : ℤ × ℤ => if q = (1, 1) then (⟨200, 0, 255, 255⟩ : Pixel)
        else ⟨0, 0, 0, 255⟩)) (1, 1)).a = 0 :=
  ⟨rfl, by decide, by norm_num [isMagenta, max_def, min_def],
    claim_C4_global_replacement _ 3 3 30 ⟨0, 0, false, false⟩ rfl (1, 1) (by decide)
      (by norm_num [isMagenta, max_def, min_def])⟩

theorem despillStep_pixel_cases (w h : ℤ) (d : ℚ) (st : Img × Finset (ℤ × ℤ))
    (q p : ℤ × ℤ) :
    (despillStep w h d false st q).1 p = st.1 p ∨
      (despillStep w h d false st q).1 p = { st.1 p with a := 0 } := by
  rw [despillStep]
  split
  · exact Or.inl rfl
  · split
    · exact Or.inl rfl
    · split
      · dsimp only
        by_cases hpq : p = q
        · subst hpq
          refine Or.inr ?_
          rw [if_pos rfl]
          rfl
        · rw [if_neg hpq]
          exact Or.inl rfl
      · exact Or.inl rfl

theorem despillFold_pixel_cases (w h : ℤ) (d : ℚ) :
    ∀ (l : List (ℤ × ℤ)) (st : Img × Finset (ℤ × ℤ)) (p : ℤ × ℤ),
      (l.foldl (despillStep w h d false) st).1 p = st.1 p ∨
      (l.foldl (despillStep w h d false) st).1 p = { st.1 p with a := 0 }
  | [], _, _ => Or.inl rfl
  | q :: rest, st, p => by
    rw [List.foldl_cons]
    rcases despillStep_pixel_cases w h d st q p with hstep | hstep <;>
      rcases despillFold_pixel_cases w h d rest (despillStep w h d false st q) p with
        hrest | hrest <;> rw [hrest, hstep]
    · exact Or.inl rfl
    · exact Or.inr rfl
    · exact Or.inr rfl
    · exact Or.inr rfl

theorem maskApply_pixel_cases (w h : ℤ) (m : Finset (ℤ × ℤ)) (img : Img) (p : ℤ × ℤ) :
    (maskApply w h m false img) p = img p ∨
      (maskApply w h m false img) p = { img p with a := 0 } := by
  rw [maskApply]
  dsimp only
  split
  · exact Or.inr rfl
  · exact Or.inl rfl

theorem applyExpansionAndDespill_pixel_cases (w h : ℤ) (expansion : ℕ) (d : ℚ)
    (img : Img) (m : Finset (ℤ × ℤ)) (p : ℤ × ℤ) :
    (applyExpansionAndDespill w h expansion d false img m) p = img p ∨
      (applyExpansionAndDespill w h expansion d false img m) p = { img p with a := 0 } := by
  rw [applyExpansionAndDespill]
  dsimp only
  simp only [Bool.false_eq_true, if_false]
  split
  · rw [despillPass]
    rcases despillFold_pixel_cases w h d (rowMajor w h)
        (maskApply w h ((dilate dirs8 w h)^[expansion] m) false img,
          (dilate dirs8 w h)^[expansion] m) p with hf | hf <;>
      rw [hf] <;> dsimp only <;>
      rcases maskApply_pixel_cases w h ((dilate dirs8 w h)^[expansion] m) img p with
        hm | hm <;> rw [hm]
    · exact Or.inl rfl
    · exact Or.inr rfl
    · exact Or.inr (by rfl)
    · exact Or.inr (by rfl)
  · exact maskApply_pixel_cases w h ((dilate dirs8 w h)^[expansion] m) img p

theorem pixel_cases_trans {x y z : Pixel} (h1 : y = x ∨ y = { x with a := 0 })
    (h2 : z = y ∨ z = { y with a := 0 }) : z = x ∨ z = { x with a := 0 } := by
  rcases h1 with rfl | rfl <;> rcases h2 with rfl | rfl
  · exact Or.inl rfl
  · exact Or.inr rfl
  · exact Or.inr rfl
  · exact Or.inr rfl

/-- C10: background removal without neutralization touches only the alpha
channel, and only downward: `removeWhiteBackground` (any parameters) and
`removeMagentaBackground` with `neutralize = false` (any other options) leave
every RGB byte unchanged and either keep or zero each alpha byte. -/
theorem claim_C10_alpha_only (img : Img) (w h : ℤ) (colorDistance : ℤ)
    (selection : Option Selection) (expansion : ℕ) (tolerance : ℚ)
    (opts : MagentaCleanupOptions) (hnz : opts.neutralize = false) (p : ℤ × ℤ) :
    (((removeWhiteBackground w h colorDistance selection expansion img) p).r = (img p).r ∧
      ((removeWhiteBackground w h colorDistance selection expansion img) p).g = (img p).g ∧
      ((removeWhiteBackground w h colorDistance selection expansion img) p).b = (img p).b ∧
      (((removeWhiteBackground w h colorDistance selection expansion img) p).a = (img p).a ∨
        ((removeWhiteBackground w h colorDistance selection expansion img) p).a = 0)) ∧
    (((removeMagentaBackground w h tolerance opts img) p).r = (img p).r ∧
      ((removeMagentaBackground w h tolerance opts img) p).g = (img p).g ∧
      ((removeMagentaBackground w h tolerance opts img) p).b = (img p).b ∧
      (((removeMagentaBackground w h tolerance opts img) p).a = (img p).a ∨
        ((removeMagentaBackground w h tolerance opts img) p).a = 0)) := by
  constructor
  · rw [removeWhiteBackground.eq_def]
    dsimp only
    split
    · exact ⟨rfl, rfl, rfl, Or.inr rfl⟩
    · exact ⟨rfl, rfl, rfl, Or.inl rfl⟩
  · have hres : (removeMagentaBackground w h tolerance opts img) p = img p ∨
        (removeMagentaBackground w h tolerance opts img) p = { img p with a := 0 } := by
      rw [removeMagentaBackground]
      split
      · dsimp only
        rw [hnz]
        refine pixel_cases_trans ?_
          (applyExpansionAndDespill_pixel_cases w h opts.expansion opts.despill _ _ p)
        dsimp only
        split
        · refine Or.inr ?_
          rw [if_neg (by simp)]
        · exact Or.inl rfl
      · dsimp only
        rw [hnz]
        exact applyExpansionAndDespill_pixel_cases w h opts.expansion opts.despill img _ p
    rcases hres with hres | hres <;> rw [hres]
    · exact ⟨rfl, rfl, rfl, Or.inl rfl⟩
    · exact ⟨rfl, rfl, rfl, Or.inr rfl⟩

/-- Witness for C10 at a concrete buffer and parameter set. -/
theorem claim_C10_witness :
    (MagentaCleanupOptions.neutralize ⟨2, 12, false, true⟩ = false) ∧
    (((removeMagentaBackground 3 3 30 ⟨2, 12, false, true⟩
        (fun _ : ℤ × ℤ => ⟨10, 20, 30, 255⟩)) (1, 1)).r =
      ((fun _ : ℤ × ℤ => (⟨10, 20, 30, 255⟩ : Pixel)) ((1 : ℤ), (1 : ℤ))).r ∧
      ((removeMagentaBackground 3 3 30 ⟨2, 12, false, true⟩
        (fun _ : ℤ × ℤ => ⟨10, 20, 30, 255⟩)) (1, 1)).g =
      ((fun _ : ℤ × ℤ => (⟨10, 20, 30, 255⟩ : Pixel)) ((1 : ℤ), (1 : ℤ))).g ∧
      ((removeMagentaBackground 3 3 30 ⟨2, 12, false, true⟩
        (fun _ : ℤ × ℤ => ⟨10, 20, 30, 255⟩)) (1, 1)).b =
      ((fun _ : ℤ × ℤ => (⟨10, 20, 30, 255⟩ : Pixel)) ((1 : ℤ), (1 : ℤ))).b ∧
      (((removeMagentaBackground 3 3 30 ⟨2, 12, false, true⟩
        (fun _ : ℤ × ℤ => ⟨10, 20, 30, 255⟩)) (1, 1)).a =
      ((fun _ : ℤ × ℤ => (⟨10, 20, 30, 255⟩ : Pixel)) ((1 : ℤ), (1 : ℤ))).a ∨
      ((removeMagentaBackground 3 3 30 ⟨2, 12, false, true⟩
        (fun _ : ℤ × ℤ => ⟨10, 20, 30, 255⟩)) (1, 1)).a = 0)) :=
  ⟨rfl,
    (claim_C10_alpha_only (fun _ : ℤ × ℤ => ⟨10, 20, 30, 255⟩) 3 3 30 none 0 30
      ⟨2, 12, false, true⟩ rfl (1, 1)).2⟩

theorem despillStep_skips_alpha (w h : ℤ) (d : ℚ) (nz : Bool) (st : Img × Finset (ℤ × ℤ))
    (q : ℤ × ℤ) (ha : (st.1 q).a = 0) : despillStep w h d nz st q = st := by
  rw [despillStep]
  rw [if_pos ha]

theorem despillStep_fires (w h : ℤ) (d : ℚ) (nz : Bool) (st : Img × Finset (ℤ × ℤ))
    (q : ℤ × ℤ) (ha : ¬(st.1 q).a = 0) (hadj : adjacentToMask w h st.2 q = true)
    (hsp : isMagentaSpill (st.1 q).r (st.1 q).g (st.1 q).b d = true) :
    despillStep w h d nz st q =
      (fun p => if p = q then (if nz then ⟨0, 0, 0, 0⟩ else { st.1 q with a := 0 })
        else st.1 p, insert q st.2) := by
  rw [despillStep]
  rw [if_neg ha, if_neg (by rw [hadj]; simp), if_pos hsp]

theorem despillStep_cases (w h : ℤ) (d : ℚ) (nz : Bool) (st : Img × Finset (ℤ × ℤ))
    (q : ℤ × ℤ) :
    despillStep w h d nz st q = st ∨
    (¬(st.1 q).a = 0 ∧ adjacentToMask w h st.2 q = true ∧
      isMagentaSpill (st.1 q).r (st.1 q).g (st.1 q).b d = true ∧
      despillStep w h d nz st q =
        (fun p => if p = q then (if nz then ⟨0, 0, 0, 0⟩ else { st.1 q with a := 0 })
          else st.1 p, insert q st.2)) := by
  by_cases ha : (st.1 q).a = 0
  · exact Or.inl (despillStep_skips_alpha w h d nz st q ha)
  by_cases hadj : adjacentToMask w h st.2 q = true
  · by_cases hsp : isMagentaSpill (st.1 q).r (st.1 q).g (st.1 q).b d = true
    · exact Or.inr ⟨ha, hadj, hsp, despillStep_fires w h d nz st q ha hadj hsp⟩
    · refine Or.inl ?_
      rw [despillStep]
      rw [if_neg ha, if_neg (by rw [Bool.not_eq_true] at *; rw [hadj]; simp), if_neg hsp]
  · refine Or.inl ?_
    rw [despillStep]
    rw [if_neg ha, if_pos (by rw [Bool.not_eq_true] at hadj; rw [hadj])]

theorem adjacentToMask_mono {w h : ℤ} {m1 m2 : Finset (ℤ × ℤ)} (hsub : m1 ⊆ m2)
    {q : ℤ × ℤ} (hadj : adjacentToMask w h m1 q = true) :
    adjacentToMask w h m2 q = true := by
  rw [adjacentToMask, List.any_eq_true] at hadj ⊢
  obtain ⟨n, hn, hcond⟩ := hadj
  simp only [Bool.and_eq_true, decide_eq_true_eq] at hcond
  exact ⟨n, hn, by simp only [Bool.and_eq_true, decide_eq_true_eq]; exact ⟨hcond.1, hsub hcond.2⟩⟩

/-- Relation between the despill-scan states of a run with a smaller mask
(first component) and a run with a larger mask (second component): the second
mask dominates, every pixel transparent in the first run is transparent in
the second, extra transparency in the second run is accounted for by its
mask, and pixels still opaque in the second run are untouched there. -/
def despillRel (st1 st2 : Img × Finset (ℤ × ℤ)) : Prop :=
  st1.2 ⊆ st2.2 ∧
  (∀ p, (st1.1 p).a = 0 → (st2.1 p).a = 0) ∧
  (∀ p, (st2.1 p).a = 0 → (st1.1 p).a = 0 ∨ p ∈ st2.2) ∧
  (∀ p, ¬(st2.1 p).a = 0 → st2.1 p = st1.1 p)

theorem fired_alpha_zero (nz : Bool) (px : Pixel) :
    ((if nz then (⟨0, 0, 0, 0⟩ : Pixel) else { px with a := 0 })).a = 0 := by
  cases nz <;> rfl

theorem despillStep_rel (w h : ℤ) (d : ℚ) (nz : Bool) (st1 st2 : Img × Finset (ℤ × ℤ))
    (q : ℤ × ℤ) (hrel : despillRel st1 st2) :
    despillRel (despillStep w h d nz st1 q) (despillStep w h d nz st2 q) := by
  obtain ⟨hA, hB, hC, hD⟩ := hrel
  by_cases ha1 : (st1.1 q).a = 0
  · rw [despillStep_skips_alpha w h d nz st1 q ha1,
      despillStep_skips_alpha w h d nz st2 q (hB q ha1)]
    exact ⟨hA, hB, hC, hD⟩
  by_cases ha2 : (st2.1 q).a = 0
  · -- the larger run has already cleared q, so its step skips and q is masked
    have hqm2 : q ∈ st2.2 := by
      rcases hC q ha2 with hc | hc
      · exact absurd hc ha1
      · exact hc
    rw [despillStep_skips_alpha w h d nz st2 q ha2]
    rcases despillStep_cases w h d nz st1 q with he | ⟨-, -, -, he⟩ <;> rw [he]
    · exact ⟨hA, hB, hC, hD⟩
    · refine ⟨Finset.insert_subset hqm2 hA, ?_, ?_, ?_⟩
      · intro p hp
        dsimp only at hp
        by_cases hpq : p = q
        · rw [hpq]; exact ha2
        · rw [if_neg hpq] at hp
          exact hB p hp
      · intro p hp
        rcases hC p hp with hc | hc
        · refine Or.inl ?_
          dsimp only
          by_cases hpq : p = q
          · rw [if_pos hpq]
            exact fired_alpha_zero nz _
          · rw [if_neg hpq]
            exact hc
        · exact Or.inr hc
      · intro p hp
        dsimp only
        by_cases hpq : p = q
        · rw [hpq] at hp
          exact absurd ha2 hp
        · rw [if_neg hpq]
          exact hD p hp
  · -- both pixels still opaque; the second run sees the same pixel value
    have hpix : st2.1 q = st1.1 q := hD q ha2
    by_cases hsp : isMagentaSpill (st1.1 q).r (st1.1 q).g (st1.1 q).b d = true
    · by_cases hadj1 : adjacentToMask w h st1.2 q = true
      · have hadj2 : adjacentToMask w h st2.2 q = true := adjacentToMask_mono hA hadj1
        rw [despillStep_fires w h d nz st1 q ha1 hadj1 hsp,
          despillStep_fires w h d nz st2 q ha2 hadj2 (by rw [hpix]; exact hsp)]
        refine ⟨Finset.insert_subset_insert q hA, ?_, ?_, ?_⟩
        · intro p hp
          dsimp only at hp ⊢
          by_cases hpq : p = q
          · rw [if_pos hpq]
            exact fired_alpha_zero nz _
          · rw [if_neg hpq] at hp ⊢
            exact hB p hp
        · intro p hp
          dsimp only at hp ⊢
          by_cases hpq : p = q
          · exact Or.inr (by rw [hpq]; exact Finset.mem_insert_self q st2.2)
          · rw [if_neg hpq] at hp ⊢
            rcases hC p hp with hc | hc
            · exact Or.inl hc
            · exact Or.inr (Finset.mem_insert_of_mem hc)
        · intro p hp
          dsimp only at hp ⊢
          by_cases hpq : p = q
          · rw [if_pos hpq] at hp
            exact absurd (fired_alpha_zero nz _) hp
          · rw [if_neg hpq] at hp
            rw [if_neg hpq, if_neg hpq]
            exact hD p hp
      · -- the smaller run skips for lack of adjacency; the larger may fire
        have he1 : despillStep w h d nz st1 q = st1 := by
          rcases despillStep_cases w h d nz st1 q with he | ⟨-, hadj, -, -⟩
          · exact he
          · exact absurd hadj hadj1
        rw [he1]
        rcases despillStep_cases w h d nz st2 q with he | ⟨-, -, -, he⟩ <;> rw [he]
        · exact ⟨hA, hB, hC, hD⟩
        · refine ⟨hA.trans (Finset.subset_insert q st2.2), ?_, ?_, ?_⟩
          · intro p hp
            dsimp only
            by_cases hpq : p = q
            · rw [if_pos hpq]
              exact fired_alpha_zero nz _
            · rw [if_neg hpq]
              exact hB p hp
          · intro p hp
            dsimp only at hp
            by_cases hpq : p = q
            · exact Or.inr (by rw [hpq]; exact Finset.mem_insert_self q st2.2)
            · rw [if_neg hpq] at hp
              rcases hC p hp with hc | hc
              · exact Or.inl hc
              · exact Or.inr (Finset.mem_insert_of_mem hc)
          · intro p hp
            dsimp only at hp ⊢
            by_cases hpq : p = q
            · rw [if_pos hpq] at hp
              exact absurd (fired_alpha_zero nz _) hp
            · rw [if_neg hpq] at hp ⊢
              exact hD p hp
    · -- the spill test fails for the shared pixel value: both runs skip
      have he1 : despillStep w h d nz st1 q = st1 := by
        rcases despillStep_cases w h d nz st1 q with he | ⟨-, -, hs, -⟩
        · exact he
        · exact absurd hs hsp
      have he2 : despillStep w h d nz st2 q = st2 := by
        rcases despillStep_cases w h d nz st2 q with he | ⟨-, -, hs, -⟩
        · exact he
        · rw [hpix] at hs
          exact absurd hs hsp
      rw [he1, he2]
      exact ⟨hA, hB, hC, hD⟩

theorem despillFold_rel (w h : ℤ) (d : ℚ) (nz : Bool) :
    ∀ (l : List (ℤ × ℤ)) (st1 st2 : Img × Finset (ℤ × ℤ)), despillRel st1 st2 →
      despillRel (l.foldl (despillStep w h d nz) st1) (l.foldl (despillStep w h d nz) st2)
  | [], _, _, hrel => hrel
  | q :: rest, st1, st2, hrel => by
    rw [List.foldl_cons, List.foldl_cons]
    exact despillFold_rel w h d nz rest _ _ (despillStep_rel w h d nz st1 st2 q hrel)

theorem maskApply_rel (w h : ℤ) (nz : Bool) (img : Img) (m1 m2 : Finset (ℤ × ℤ))
    (hsub : m1 ⊆ m2) :
    despillRel (maskApply w h m1 nz img, m1) (maskApply w h m2 nz img, m2) := by
  refine ⟨hsub, ?_, ?_, ?_⟩
  · intro p hp
    dsimp only at hp ⊢
    simp only [maskApply] at hp ⊢
    by_cases hc2 : inBounds w h p = true ∧ p ∈ m2
    · rw [if_pos hc2]
      split <;> rfl
    · rw [if_neg hc2]
      by_cases hc1 : inBounds w h p = true ∧ p ∈ m1
      · exact absurd ⟨hc1.1, hsub hc1.2⟩ hc2
      · rw [if_neg hc1] at hp
        exact hp
  · intro p hp
    dsimp only at hp ⊢
    simp only [maskApply] at hp ⊢
    by_cases hc2 : inBounds w h p = true ∧ p ∈ m2
    · exact Or.inr hc2.2
    · rw [if_neg hc2] at hp
      refine Or.inl ?_
      by_cases hc1 : inBounds w h p = true ∧ p ∈ m1
      · rw [if_pos hc1]
        split <;> rfl
      · rw [if_neg hc1]
        exact hp
  · intro p hp
    dsimp only at hp ⊢
    simp only [maskApply] at hp ⊢
    by_cases hc2 : inBounds w h p = true ∧ p ∈ m2
    · rw [if_pos hc2] at hp
      exact absurd (by split <;> rfl) hp
    · rw [if_neg hc2] at hp ⊢
      by_cases hc1 : inBounds w h p = true ∧ p ∈ m1
      · exact absurd ⟨hc1.1, hsub hc1.2⟩ hc2
      · rw [if_neg hc1]

theorem dilate_iterate_le_succ (dirs : List (ℤ × ℤ)) (w h : ℤ) (m : Finset (ℤ × ℤ))
    (k : ℕ) : (dilate dirs w h)^[k] m ⊆ (dilate dirs w h)^[k + 1] m := by
  rw [Function.iterate_succ_apply']
  exact subset_dilate dirs w h _

theorem applyExpansionAndDespill_alpha_mono (w h : ℤ) (k : ℕ) (d : ℚ) (nz : Bool)
    (img : Img) (m : Finset (ℤ × ℤ)) (p : ℤ × ℤ)
    (hz : ((applyExpansionAndDespill w h k d nz img m) p).a = 0) :
    ((applyExpansionAndDespill w h (k + 1) d nz img m) p).a = 0 := by
  have hrel0 := maskApply_rel w h nz img ((dilate dirs8 w h)^[k] m)
    ((dilate dirs8 w h)^[k + 1] m) (dilate_iterate_le_succ dirs8 w h m k)
  have hrel := despillFold_rel w h d nz (rowMajor w h) _ _ hrel0
  rw [applyExpansionAndDespill] at hz ⊢
  split at hz
  · rw [neutralizePass_alpha] at hz
    split
    · rw [neutralizePass_alpha]
      split at hz
      · split
        · exact hrel.2.1 p hz
        · contradiction
      · split
        · contradiction
        · exact hrel0.2.1 p hz
    · contradiction
  · split
    · contradiction
    · split at hz
      · split
        · exact hrel.2.1 p hz
        · contradiction
      · split
        · contradiction
        · exact hrel0.2.1 p hz

/-- C6: the expansion pass is monotone in the expansion radius: every pixel
made transparent with `expansionPixels = k` is transparent with `k + 1` (all
other parameters fixed), for both `removeWhiteBackground` and
`removeMagentaBackground`; hence the transparent-pixel counts over the image
are non-decreasing in `k`. -/
theorem claim_C6_expansion_monotone (img : Img) (w h : ℤ) (colorDistance : ℤ)
    (selection : Option Selection) (tolerance : ℚ) (d : ℚ) (nz ff : Bool) (k : ℕ) :
    (∀ p : ℤ × ℤ,
      ((removeWhiteBackground w h colorDistance selection k img) p).a = 0 →
      ((removeWhiteBackground w h colorDistance selection (k + 1) img) p).a = 0) ∧
    ((grid w h).filter fun p =>
        ((removeWhiteBackground w h colorDistance selection k img) p).a = 0).card ≤
      ((grid w h).filter fun p =>
        ((removeWhiteBackground w h colorDistance selection (k + 1) img) p).a = 0).card ∧
    (∀ p : ℤ × ℤ,
      ((removeMagentaBackground w h tolerance ⟨k, d, nz, ff⟩ img) p).a = 0 →
      ((removeMagentaBackground w h tolerance ⟨k + 1, d, nz, ff⟩ img) p).a = 0) ∧
    ((grid w h).filter fun p =>
        ((removeMagentaBackground w h tolerance ⟨k, d, nz, ff⟩ img) p).a = 0).card ≤
      ((grid w h).filter fun p =>
        ((removeMagentaBackground w h tolerance ⟨k + 1, d, nz, ff⟩ img) p).a = 0).card := by
  have hwhite : ∀ p : ℤ × ℤ,
      ((removeWhiteBackground w h colorDistance selection k img) p).a = 0 →
      ((removeWhiteBackground w h colorDistance selection (k + 1) img) p).a = 0 := by
    intro p hz
    rw [removeWhiteBackground.eq_def] at hz ⊢
    dsimp only at hz ⊢
    split at hz
    · rename_i hmem
      rw [if_pos (dilate_iterate_le_succ dirs4 w h _ k hmem)]
    · split
      · rfl
      · exact hz
  have hmagenta : ∀ p : ℤ × ℤ,
      ((removeMagentaBackground w h tolerance ⟨k, d, nz, ff⟩ img) p).a = 0 →
      ((removeMagentaBackground w h tolerance ⟨k + 1, d, nz, ff⟩ img) p).a = 0 := by
    intro p hz
    rw [removeMagentaBackground] at hz ⊢
    split at hz <;> split
    · exact applyExpansionAndDespill_alpha_mono w h k d nz _ _ p hz
    · contradiction
    · contradiction
    · exact applyExpansionAndDespill_alpha_mono w h k d nz _ _ p hz
  refine ⟨hwhite, ?_, hmagenta, ?_⟩
  · exact Finset.card_le_card
      (Finset.monotone_filter_right (grid w h) fun p hp => hwhite p hp)
  · exact Finset.card_le_card
      (Finset.monotone_filter_right (grid w h) fun p hp => hmagenta p hp)

/-- Witness for C6 on an already-transparent buffer. -/
theorem claim_C6_witness :
    ((removeWhiteBackground 2 2 30 none 0 (fun _ : ℤ × ℤ => ⟨0, 0, 0, 0⟩)) (0, 0)).a = 0 ∧
    ((removeWhiteBackground 2 2 30 none 1 (fun _ : ℤ × ℤ => ⟨0, 0, 0, 0⟩)) (0, 0)).a = 0 :=
  ⟨by rw [removeWhiteBackground.eq_def]; dsimp only; split <;> rfl,
    (claim_C6_expansion_monotone (fun _ : ℤ × ℤ => ⟨0, 0, 0, 0⟩) 2 2 30 none 30 0
      false true 0).1 (0, 0)
      (by rw [removeWhiteBackground.eq_def]; dsimp only; split <;> rfl)⟩

theorem rowMajor_nodup (w h : ℤ) : (rowMajor w h).Nodup := by
  rw [rowMajor, List.nodup_flatMap]
  constructor
  · intro y _
    refine List.Nodup.map ?_ (List.nodup_range _)
    intro a b hab
    have := congrArg Prod.fst hab
    simpa using this
  · have hne : (List.range h.toNat).Pairwise (· ≠ ·) := List.nodup_range h.toNat
    refine hne.imp ?_
    intro y1 y2 hne12 q hq1 hq2
    rw [List.mem_map] at hq1 hq2
    obtain ⟨x1, -, rfl⟩ := hq1
    obtain ⟨x2, -, he⟩ := hq2
    have h2 := congrArg Prod.snd he
    simp only at h2
    exact hne12 (by exact_mod_cast h2.symm)

theorem setAlphaZero_eq_self {x : Pixel} (hx : x.a = 0) : { x with a := 0 } = x := by
  obtain ⟨r, g, b, a⟩ := x
  simp only at hx
  rw [hx]

theorem untouched_trans {x y z : Pixel} (h1 : y = x ∨ y.a = 0) (h2 : z = y ∨ z.a = 0) :
    z = x ∨ z.a = 0 := by
  rcases h2 with rfl | h2
  · exact h1
  · exact Or.inr h2

theorem despillStep_skips_adj (w h : ℤ) (d : ℚ) (nz : Bool) (st : Img × Finset (ℤ × ℤ))
    (q : ℤ × ℤ) (hadj : adjacentToMask w h st.2 q = false) :
    despillStep w h d nz st q = st := by
  rcases despillStep_cases w h d nz st q with he | ⟨-, ha, -, -⟩
  · exact he
  · rw [ha] at hadj
    exact absurd hadj (by simp)

theorem despillStep_skips_spill (w h : ℤ) (d : ℚ) (nz : Bool) (st : Img × Finset (ℤ × ℤ))
    (q : ℤ × ℤ) (hsp : isMagentaSpill (st.1 q).r (st.1 q).g (st.1 q).b d = false) :
    despillStep w h d nz st q = st := by
  rcases despillStep_cases w h d nz st q with he | ⟨-, -, hs, -⟩
  · exact he
  · rw [hs] at hsp
    exact absurd hsp (by simp)

theorem despillStep_mask_grows (w h : ℤ) (d : ℚ) (nz : Bool) (st : Img × Finset (ℤ × ℤ))
    (q : ℤ × ℤ) : st.2 ⊆ (despillStep w h d nz st q).2 := by
  rcases despillStep_cases w h d nz st q with he | ⟨-, -, -, he⟩ <;> rw [he]
  exact Finset.subset_insert q st.2

theorem despillStep_other (w h : ℤ) (d : ℚ) (nz : Bool) (st : Img × Finset (ℤ × ℤ))
    (q p : ℤ × ℤ) (hpq : p ≠ q) : (despillStep w h d nz st q).1 p = st.1 p := by
  rcases despillStep_cases w h d nz st q with he | ⟨-, -, -, he⟩ <;> rw [he]
  dsimp only
  rw [if_neg hpq]

theorem despillStep_untouched (w h : ℤ) (d : ℚ) (nz : Bool) (st : Img × Finset (ℤ × ℤ))
    (q p : ℤ × ℤ) :
    (despillStep w h d nz st q).1 p = st.1 p ∨ ((despillStep w h d nz st q).1 p).a = 0 := by
  rcases despillStep_cases w h d nz st q with he | ⟨-, -, -, he⟩ <;> rw [he]
  · exact Or.inl rfl
  · dsimp only
    by_cases hpq : p = q
    · rw [if_pos hpq]
      exact Or.inr (fired_alpha_zero nz _)
    · rw [if_neg hpq]
      exact Or.inl rfl

theorem despillFold_untouched (w h : ℤ) (d : ℚ) (nz : Bool) :
    ∀ (l : List (ℤ × ℤ)) (st : Img × Finset (ℤ × ℤ)) (p : ℤ × ℤ),
      (l.foldl (despillStep w h d nz) st).1 p = st.1 p ∨
        ((l.foldl (despillStep w h d nz) st).1 p).a = 0
  | [], _, _ => Or.inl rfl
  | q :: rest, st, p => by
    rw [List.foldl_cons]
    exact untouched_trans (despillStep_untouched w h d nz st q p)
      (despillFold_untouched w h d nz rest _ p)

theorem despillFold_noop (w h : ℤ) (d : ℚ) (nz : Bool) :
    ∀ (l : List (ℤ × ℤ)) (st : Img × Finset (ℤ × ℤ)),
      (∀ q ∈ l, despillStep w h d nz st q = st) → l.foldl (despillStep w h d nz) st = st
  | [], _, _ => rfl
  | q :: rest, st, hall => by
    rw [List.foldl_cons, hall q (List.mem_cons_self _ _)]
    exact despillFold_noop w h d nz rest st fun x hx =>
      hall x (List.mem_cons_of_mem _ hx)

theorem despillFold_not_triggered (w h : ℤ) (d : ℚ) (nz : Bool) :
    ∀ (l : List (ℤ × ℤ)) (st : Img × Finset (ℤ × ℤ)), l.Nodup →
      ∀ q ∈ l, ¬((l.foldl (despillStep w h d nz) st).1 q).a = 0 →
        adjacentToMask w h st.2 q = false ∨
          isMagentaSpill ((st.1 q)).r ((st.1 q)).g ((st.1 q)).b d = false
  | [], _, _, q, hq, _ => absurd hq (List.not_mem_nil q)
  | c :: rest, st, hnd, q, hq, hna => by
    rw [List.foldl_cons] at hna
    rcases List.mem_cons.mp hq with rfl | hq
    · -- q is the scanned pixel; the tail never writes it again
      have hqrest : q ∉ rest := (List.nodup_cons.mp hnd).1
      have hfinal : ((rest.foldl (despillStep w h d nz) (despillStep w h d nz st q)).1 q)
          = (despillStep w h d nz st q).1 q ∨
          ((rest.foldl (despillStep w h d nz) (despillStep w h d nz st q)).1 q).a = 0 :=
        despillFold_untouched w h d nz rest _ q
      have hstep : ((despillStep w h d nz st q).1 q).a ≠ 0 := by
        rcases hfinal with hf | hf
        · rw [hf] at hna
          exact hna
        · exact absurd hf hna
      by_cases ha : (st.1 q).a = 0
      · rw [despillStep_skips_alpha w h d nz st q ha] at hstep
        exact absurd ha hstep
      by_cases hadj : adjacentToMask w h st.2 q = true
      · by_cases hsp : isMagentaSpill (st.1 q).r (st.1 q).g (st.1 q).b d = true
        · rw [despillStep_fires w h d nz st q ha hadj hsp] at hstep
          dsimp only at hstep
          rw [if_pos rfl] at hstep
          exact absurd (fired_alpha_zero nz _) hstep
        · exact Or.inr (by rw [Bool.not_eq_true] at hsp; exact hsp)
      · exact Or.inl (by rw [Bool.not_eq_true] at hadj; exact hadj)
    · have hcq : q ≠ c := by
        intro hcontra
        rw [hcontra] at hq
        exact (List.nodup_cons.mp hnd).1 hq
      have hih := despillFold_not_triggered w h d nz rest (despillStep w h d nz st c)
        (List.nodup_cons.mp hnd).2 q hq hna
      rcases hih with hih | hih
      · refine Or.inl ?_
        rw [Bool.eq_false_iff]
        intro hcontra
        rw [adjacentToMask_mono (despillStep_mask_grows w h d nz st c) hcontra] at hih
        exact absurd hih (by simp)
      · rw [despillStep_other w h d nz st c q hcq] at hih
        exact Or.inr hih

theorem floodLoop_supset (isBg : ℤ × ℤ → Bool) (w h : ℤ) :
    ∀ (queue : List (ℤ × ℤ)) (visited : Finset (ℤ × ℤ)),
      visited ⊆ floodLoop isBg w h queue visited := by
  intro queue visited
  induction queue, visited using floodLoop.induct isBg w h with
  | case1 visited =>
    rw [floodLoop]
  | case2 visited c rest ns =>
    rename_i ih
    rw [floodLoop]
    exact Finset.subset_union_left.trans ih

theorem seedScan_visited_mono (isBg : ℤ × ℤ → Bool) :
    ∀ (cands : List (ℤ × ℤ)) (init : List (ℤ × ℤ) × Finset (ℤ × ℤ)),
      init.2 ⊆ (seedScan isBg cands init).2
  | [], _ => Finset.Subset.refl _
  | p :: rest, init => by
    have hstep : seedScan isBg (p :: rest) init = seedScan isBg rest
        (if isBg p && decide (p ∉ init.2) then (init.1 ++ [p], insert p init.2) else init) := by
      rw [seedScan, seedScan, List.foldl_cons]
    rw [hstep]
    split
    · exact (Finset.subset_insert p init.2).trans
        (seedScan_visited_mono isBg rest (init.1 ++ [p], insert p init.2))
    · exact seedScan_visited_mono isBg rest init

theorem seedScan_complete (isBg : ℤ × ℤ → Bool) :
    ∀ (cands : List (ℤ × ℤ)) (init : List (ℤ × ℤ) × Finset (ℤ × ℤ)) (c : ℤ × ℤ),
      c ∈ cands → isBg c = true → c ∈ (seedScan isBg cands init).2
  | [], _, c, hc, _ => absurd hc (List.not_mem_nil c)
  | p :: rest, init, c, hc, hbg => by
    have hstep : seedScan isBg (p :: rest) init = seedScan isBg rest
        (if isBg p && decide (p ∉ init.2) then (init.1 ++ [p], insert p init.2) else init) := by
      rw [seedScan, seedScan, List.foldl_cons]
    rw [hstep]
    rcases List.mem_cons.mp hc with rfl | hc
    · by_cases hmem : c ∈ init.2
      · split
        · exact seedScan_visited_mono isBg rest _ (Finset.mem_insert_of_mem hmem)
        · exact seedScan_visited_mono isBg rest _ hmem
      · rw [if_pos (by rw [hbg]; simp [hmem])]
        exact seedScan_visited_mono isBg rest _ (Finset.mem_insert_self c init.2)
    · split
      · exact seedScan_complete isBg rest _ c hc hbg
      · exact seedScan_complete isBg rest _ c hc hbg

theorem dilate_empty (dirs : List (ℤ × ℤ)) (w h : ℤ) : dilate dirs w h ∅ = ∅ := by
  rw [dilate]
  simp

theorem dilate_iterate_empty (dirs : List (ℤ × ℤ)) (w h : ℤ) (k : ℕ) :
    (dilate dirs w h)^[k] (∅ : Finset (ℤ × ℤ)) = ∅ := by
  induction k with
  | zero => rfl
  | succ k ih =>
    rw [Function.iterate_succ_apply', ih, dilate_empty]

theorem adjacentToMask_no_inbounds (w h : ℤ) (m : Finset (ℤ × ℤ))
    (hm : ∀ x ∈ m, inBounds w h x = false) (q : ℤ × ℤ) :
    adjacentToMask w h m q = false := by
  rw [adjacentToMask, List.any_eq_false]
  intro n _
  simp only [Bool.and_eq_true, decide_eq_true_eq, not_and]
  intro hb hmem
  rw [hm n hmem] at hb
  exact absurd hb (by simp)

theorem neutralizePass_rgb (w h : ℤ) (img : Img) (p : ℤ × ℤ)
    (hb : inBounds w h p = true) (hz : ((neutralizePass w h img) p).a = 0) :
    ((neutralizePass w h img) p).r = 0 ∧ ((neutralizePass w h img) p).g = 0 ∧
      ((neutralizePass w h img) p).b = 0 := by
  rw [neutralizePass] at hz ⊢
  dsimp only at hz ⊢
  by_cases hc : inBounds w h p = true ∧ (img p).a = 0
  · rw [if_pos hc]
    exact ⟨rfl, rfl, rfl⟩
  · rw [if_neg hc] at hz
    exact absurd ⟨hb, hz⟩ hc

theorem isMagenta_zero (tolerance : ℚ) : isMagenta 0 0 0 tolerance = false := by
  rw [isMagenta]
  norm_num

theorem edgeCandidates_complete {w h : ℤ} {c : ℤ × ℤ} (hb : inBounds w h c = true)
    (hedge : c.2 = 0 ∨ c.2 = h - 1 ∨ c.1 = 0 ∨ c.1 = w - 1) : c ∈ edgeCandidates w h := by
  obtain ⟨x, y⟩ := c
  rw [inBounds] at hb
  simp only [Bool.and_eq_true, decide_eq_true_eq] at hb
  simp only at hedge
  rw [edgeCandidates, List.mem_append]
  by_cases hy : y = 0 ∨ y = h - 1
  · refine Or.inl ?_
    rw [List.mem_flatMap]
    refine ⟨x.toNat, by rw [List.mem_range]; omega, ?_⟩
    simp only [List.mem_cons, List.not_mem_nil, or_false, Prod.mk.injEq]
    rcases hy with hy | hy
    · exact Or.inl ⟨by omega, hy⟩
    · exact Or.inr ⟨by omega, hy⟩
  · refine Or.inr ?_
    rw [List.mem_flatMap]
    push_neg at hy
    have hx : x = 0 ∨ x = w - 1 := by tauto
    refine ⟨(y - 1).toNat, by rw [List.mem_range]; omega, ?_⟩
    simp only [List.mem_cons, List.not_mem_nil, or_false, Prod.mk.injEq]
    rcases hx with hx | hx
    · exact Or.inl ⟨hx, by omega⟩
    · exact Or.inr ⟨hx, by omega⟩

theorem neighbor_of_outside_border {w h : ℤ} {c n : ℤ × ℤ}
    (hn : n ∈ neighborsOf dirs4 c) (hc : inBounds w h c = false)
    (hnb : inBounds w h n = true) :
    n.2 = 0 ∨ n.2 = h - 1 ∨ n.1 = 0 ∨ n.1 = w - 1 := by
  rw [mem_neighborsOf_dirs4] at hn
  rw [inBounds] at hc hnb
  rw [Bool.and_eq_false_iff, Bool.and_eq_false_iff, Bool.and_eq_false_iff] at hc
  simp only [Bool.and_eq_true, decide_eq_true_eq, decide_eq_false_iff_not] at hc hnb
  obtain ⟨cx, cy⟩ := c
  obtain ⟨nx, ny⟩ := n
  simp only [Prod.mk.injEq] at hn ⊢
  rcases hn with ⟨hn1, hn2⟩ | ⟨hn1, hn2⟩ | ⟨hn1, hn2⟩ | ⟨hn1, hn2⟩ <;> omega

theorem maskApply_untouched (w h : ℤ) (m : Finset (ℤ × ℤ)) (nz : Bool) (img : Img)
    (p : ℤ × ℤ) :
    (maskApply w h m nz img) p = img p ∨ ((maskApply w h m nz img) p).a = 0 := by
  rw [maskApply]
  split
  · refine Or.inr ?_
    split <;> rfl
  · exact Or.inl rfl

theorem neutralizePass_untouched (w h : ℤ) (img : Img) (p : ℤ × ℤ) :
    (neutralizePass w h img) p = img p ∨ ((neutralizePass w h img) p).a = 0 := by
  rw [neutralizePass]
  dsimp only
  split
  · rename_i hcond
    exact Or.inr hcond.2
  · exact Or.inl rfl

theorem applyExpansionAndDespill_untouched (w h : ℤ) (e : ℕ) (d : ℚ) (nz : Bool)
    (img : Img) (m : Finset (ℤ × ℤ)) (p : ℤ × ℤ) :
    (applyExpansionAndDespill w h e d nz img m) p = img p ∨
      ((applyExpansionAndDespill w h e d nz img m) p).a = 0 := by
  rw [applyExpansionAndDespill]
  have h1 := maskApply_untouched w h ((dilate dirs8 w h)^[e] m) nz img p
  split
  · refine untouched_trans ?_ (neutralizePass_untouched w h _ p)
    split
    · exact untouched_trans h1 (despillFold_untouched w h d nz (rowMajor w h) _ p)
    · exact h1
  · split
    · exact untouched_trans h1 (despillFold_untouched w h d nz (rowMajor w h) _ p)
    · exact h1

theorem removeMagentaBackground_untouched (w h : ℤ) (tolerance : ℚ)
    (opts : MagentaCleanupOptions) (img : Img) (p : ℤ × ℤ) :
    (removeMagentaBackground w h tolerance opts img) p = img p ∨
      ((removeMagentaBackground w h tolerance opts img) p).a = 0 := by
  rw [removeMagentaBackground]
  split
  · dsimp only
    refine untouched_trans ?_ (applyExpansionAndDespill_untouched w h _ _ _ _ _ p)
    split
    · refine Or.inr ?_
      split <;> rfl
    · exact Or.inl rfl
  · dsimp only
    exact applyExpansionAndDespill_untouched w h _ _ _ _ _ p

theorem applyExpansionAndDespill_mem_alpha (w h : ℤ) (e : ℕ) (d : ℚ) (nz : Bool)
    (img : Img) (m : Finset (ℤ × ℤ)) (p : ℤ × ℤ) (hb : inBounds w h p = true)
    (hm : p ∈ m) : ((applyExpansionAndDespill w h e d nz img m) p).a = 0 := by
  rw [applyExpansionAndDespill]
  have h1 : ((maskApply w h ((dilate dirs8 w h)^[e] m) nz img) p).a = 0 :=
    maskApply_mem_alpha w h _ nz img p hb (subset_dilate_iterate dirs8 w h m e hm)
  split
  · rw [neutralizePass_alpha]
    split
    · exact despillFold_alpha_zero w h d nz _ _ p h1
    · exact h1
  · split
    · exact despillFold_alpha_zero w h d nz _ _ p h1
    · exact h1

theorem removeMagenta_global_clears (w h : ℤ) (tolerance : ℚ)
    (opts : MagentaCleanupOptions) (hff : opts.useFloodFill = false) (img : Img)
    (p : ℤ × ℤ) (hb : inBounds w h p = true)
    (hmag : isMagenta (img p).r (img p).g (img p).b tolerance = true) :
    ((removeMagentaBackground w h tolerance opts img) p).a = 0 := by
  rw [removeMagentaBackground, if_pos hff]
  dsimp only
  apply applyExpansionAndDespill_alpha_zero
  rw [if_pos ⟨hb, hmag⟩]
  split <;> rfl

theorem removeMagenta_flood_clears_border (w h : ℤ) (tolerance : ℚ)
    (opts : MagentaCleanupOptions) (hff : opts.useFloodFill = true) (img : Img)
    (p : ℤ × ℤ) (hb : inBounds w h p = true)
    (hedge : p.2 = 0 ∨ p.2 = h - 1 ∨ p.1 = 0 ∨ p.1 = w - 1)
    (hmag : isMagenta (img p).r (img p).g (img p).b tolerance = true) :
    ((removeMagentaBackground w h tolerance opts img) p).a = 0 := by
  rw [removeMagentaBackground, if_neg (by rw [hff]; simp)]
  refine applyExpansionAndDespill_mem_alpha w h _ _ _ img _ p hb ?_
  refine floodLoop_supset _ w h _ _ ?_
  exact seedScan_complete _ (edgeCandidates w h) ([], ∅)
    p (edgeCandidates_complete hb hedge) hmag

theorem removeMagentaBackground_neutralized (w h : ℤ) (tolerance : ℚ)
    (opts : MagentaCleanupOptions) (hnz : opts.neutralize = true) (img : Img)
    (p : ℤ × ℤ) (hb : inBounds w h p = true)
    (hz : ((removeMagentaBackground w h tolerance opts img) p).a = 0) :
    ((removeMagentaBackground w h tolerance opts img) p).r = 0 ∧
      ((removeMagentaBackground w h tolerance opts img) p).g = 0 ∧
      ((removeMagentaBackground w h tolerance opts img) p).b = 0 := by
  by_cases hff : opts.useFloodFill = false
  · rw [removeMagentaBackground, if_pos hff] at hz ⊢
    rw [applyExpansionAndDespill] at hz ⊢
    rw [hnz] at hz ⊢
    rw [if_pos rfl] at hz ⊢
    exact neutralizePass_rgb w h _ p hb hz
  · rw [removeMagentaBackground, if_neg hff] at hz ⊢
    rw [applyExpansionAndDespill] at hz ⊢
    rw [hnz] at hz ⊢
    rw [if_pos rfl] at hz ⊢
    exact neutralizePass_rgb w h _ p hb hz

theorem dilate_no_inbounds (dirs : List (ℤ × ℤ)) (w h : ℤ) (m : Finset (ℤ × ℤ))
    (hm : ∀ x ∈ m, inBounds w h x = false) : dilate dirs w h m = m := by
  rw [dilate]
  have hfil : m.filter (fun p => inBounds w h p = true) = ∅ := by
    rw [Finset.filter_eq_empty_iff]
    intro x hx
    rw [hm x hx]
    simp
  rw [hfil]
  simp

theorem dilate_iterate_no_inbounds (dirs : List (ℤ × ℤ)) (w h : ℤ) (m : Finset (ℤ × ℤ))
    (hm : ∀ x ∈ m, inBounds w h x = false) (k : ℕ) : (dilate dirs w h)^[k] m = m := by
  induction k with
  | zero => rfl
  | succ k ih =>
    rw [Function.iterate_succ_apply', ih, dilate_no_inbounds dirs w h m hm]

theorem maskApply_no_inbounds (w h : ℤ) (m : Finset (ℤ × ℤ)) (nz : Bool) (img : Img)
    (hm : ∀ x ∈ m, inBounds w h x = false) : maskApply w h m nz img = img := by
  funext p
  rw [maskApply]
  dsimp only
  rw [if_neg]
  intro hc
  rw [hm p hc.2] at hc
  exact absurd hc.1 (by simp)

theorem applyExpansionAndDespill_outside_alpha (w h : ℤ) (e : ℕ) (d : ℚ) (nz : Bool)
    (img : Img) (m : Finset (ℤ × ℤ)) (hm : ∀ x ∈ m, inBounds w h x = false) (p : ℤ × ℤ) :
    ((applyExpansionAndDespill w h e d nz img m) p).a = (img p).a := by
  rw [applyExpansionAndDespill]
  rw [dilate_iterate_no_inbounds dirs8 w h m hm e, maskApply_no_inbounds w h m nz img hm]
  have hnoop : (rowMajor w h).foldl (despillStep w h d nz) (img, m) = (img, m) := by
    refine despillFold_noop w h d nz (rowMajor w h) (img, m) ?_
    intro q _
    exact despillStep_skips_adj w h d nz (img, m) q
      (adjacentToMask_no_inbounds w h m hm q)
  split
  · rw [neutralizePass_alpha]
    split
    · rw [despillPass, hnoop]
    · rfl
  · split
    · rw [despillPass, hnoop]
    · rfl

theorem removeMagentaBackground_pixel_cases (w h : ℤ) (tolerance : ℚ)
    (opts : MagentaCleanupOptions) (hnz : opts.neutralize = false) (img : Img)
    (p : ℤ × ℤ) :
    (removeMagentaBackground w h tolerance opts img) p = img p ∨
      (removeMagentaBackground w h tolerance opts img) p = { img p with a := 0 } := by
  rw [removeMagentaBackground]
  split
  · dsimp only
    rw [hnz]
    refine pixel_cases_trans ?_
      (applyExpansionAndDespill_pixel_cases w h opts.expansion opts.despill _ _ p)
    dsimp only
    split
    · refine Or.inr ?_
      rw [if_neg (by simp)]
    · exact Or.inl rfl
  · dsimp only
    rw [hnz]
    exact applyExpansionAndDespill_pixel_cases w h opts.expansion opts.despill img _ p

theorem applyExpansionAndDespill_despill_form (w h : ℤ) (e : ℕ) (d : ℚ) (img : Img)
    (m : Finset (ℤ × ℤ)) (hd : 0 < d) :
    applyExpansionAndDespill w h e d false img m =
      (despillPass w h d false (maskApply w h ((dilate dirs8 w h)^[e] m) false img)
        ((dilate dirs8 w h)^[e] m)).1 := by
  rw [applyExpansionAndDespill]
  simp only [Bool.false_eq_true, if_false]
  rw [if_pos hd]

theorem applyExpansionAndDespill_plain_form (w h : ℤ) (e : ℕ) (d : ℚ) (img : Img)
    (m : Finset (ℤ × ℤ)) (hd : ¬0 < d) :
    applyExpansionAndDespill w h e d false img m =
      maskApply w h ((dilate dirs8 w h)^[e] m) false img := by
  rw [applyExpansionAndDespill]
  simp only [Bool.false_eq_true, if_false]
  rw [if_neg hd]

theorem applyExpansionAndDespill_remask (w h : ℤ) (e : ℕ) (d : ℚ) (img : Img)
    (m : Finset (ℤ × ℤ)) :
    maskApply w h ((dilate dirs8 w h)^[e] m) false
        (applyExpansionAndDespill w h e d false img m) =
      applyExpansionAndDespill w h e d false img m := by
  funext q
  rw [maskApply]
  dsimp only
  split
  · rename_i hq
    have hz : ((applyExpansionAndDespill w h e d false img m) q).a = 0 := by
      by_cases hd : 0 < d
      · rw [applyExpansionAndDespill_despill_form w h e d img m hd]
        exact despillFold_alpha_zero w h d false _ _ q
          (maskApply_mem_alpha w h _ false img q hq.1 hq.2)
      · rw [applyExpansionAndDespill_plain_form w h e d img m hd]
        exact maskApply_mem_alpha w h _ false img q hq.1 hq.2
    exact setAlphaZero_eq_self hz
  · rfl

theorem applyExpansionAndDespill_stable (w h : ℤ) (e : ℕ) (d : ℚ) (img : Img)
    (m : Finset (ℤ × ℤ)) (p : ℤ × ℤ) :
    applyExpansionAndDespill w h e d false
        (applyExpansionAndDespill w h e d false img m) m p =
      applyExpansionAndDespill w h e d false img m p := by
  by_cases hd : 0 < d
  · rw [applyExpansionAndDespill_despill_form w h e d
      (applyExpansionAndDespill w h e d false img m) m hd]
    rw [applyExpansionAndDespill_remask w h e d img m]
    rw [despillPass]
    rw [despillFold_noop w h d false (rowMajor w h) _ ?_]
    · intro q hq
      by_cases hz : ((applyExpansionAndDespill w h e d false img m) q).a = 0
      · exact despillStep_skips_alpha w h d false _ q hz
      · have hfold : ¬(((rowMajor w h).foldl (despillStep w h d false)
            (maskApply w h ((dilate dirs8 w h)^[e] m) false img,
              (dilate dirs8 w h)^[e] m)).1 q).a = 0 := by
          rw [applyExpansionAndDespill_despill_form w h e d img m hd] at hz
          exact hz
        have hnt := despillFold_not_triggered w h d false (rowMajor w h)
          (maskApply w h ((dilate dirs8 w h)^[e] m) false img,
            (dilate dirs8 w h)^[e] m) (rowMajor_nodup w h) q hq hfold
        have huntouched : (applyExpansionAndDespill w h e d false img m) q =
            maskApply w h ((dilate dirs8 w h)^[e] m) false img q := by
          rcases despillFold_untouched w h d false (rowMajor w h)
            (maskApply w h ((dilate dirs8 w h)^[e] m) false img,
              (dilate dirs8 w h)^[e] m) q with hu | hu
          · rw [applyExpansionAndDespill_despill_form w h e d img m hd]
            exact hu
          · exact absurd hu hfold
        rcases hnt with hnt | hnt
        · exact despillStep_skips_adj w h d false _ q hnt
        · refine despillStep_skips_spill w h d false _ q ?_
          dsimp only
          rw [huntouched]
          exact hnt
  · rw [applyExpansionAndDespill_plain_form w h e d
      (applyExpansionAndDespill w h e d false img m) m hd]
    rw [applyExpansionAndDespill_remask w h e d img m]

theorem removeWhiteBackground_idem_alpha (w h : ℤ) (colorDistance : ℤ)
    (selection : Option Selection) (expansion : ℕ) (img : Img) (p : ℤ × ℤ) :
    ((removeWhiteBackground w h colorDistance selection expansion
        (removeWhiteBackground w h colorDistance selection expansion img)) p).a =
      ((removeWhiteBackground w h colorDistance selection expansion img) p).a := by
  have hbg_pt : ∀ q : ℤ × ℤ,
      isWhite (255 - colorDistance)
        ((removeWhiteBackground w h colorDistance selection expansion img) q).r
        ((removeWhiteBackground w h colorDistance selection expansion img) q).g
        ((removeWhiteBackground w h colorDistance selection expansion img) q).b =
      isWhite (255 - colorDistance) (img q).r (img q).g (img q).b := by
    intro q
    rw [removeWhiteBackground.eq_def]
    dsimp only
    split <;> rfl
  rw [removeWhiteBackground.eq_def]
  dsimp only
  simp only [hbg_pt]
  split
  · rename_i hmem
    have hz : ((removeWhiteBackground w h colorDistance selection expansion img) p).a = 0 := by
      rw [removeWhiteBackground.eq_def]
      dsimp only
      rw [if_pos hmem]
    rw [hz]
  · rfl

theorem removeMagentaBackground_idem_alpha (w h : ℤ) (tolerance : ℚ)
    (opts : MagentaCleanupOptions) (img : Img) (p : ℤ × ℤ) :
    ((removeMagentaBackground w h tolerance opts
        (removeMagentaBackground w h tolerance opts img)) p).a =
      ((removeMagentaBackground w h tolerance opts img) p).a := by
  by_cases hnz : opts.neutralize = false
  · have hbg_pt : ∀ q : ℤ × ℤ,
        isMagenta ((removeMagentaBackground w h tolerance opts img) q).r
          ((removeMagentaBackground w h tolerance opts img) q).g
          ((removeMagentaBackground w h tolerance opts img) q).b tolerance =
        isMagenta (img q).r (img q).g (img q).b tolerance := by
      intro q
      rcases removeMagentaBackground_pixel_cases w h tolerance opts hnz img q with hc | hc <;>
        rw [hc]
    by_cases hff : opts.useFloodFill = false
    · rw [removeMagentaBackground, if_pos hff]
      dsimp only
      simp only [hbg_pt]
      rw [hnz]
      have himg0 : (fun q : ℤ × ℤ =>
          if inBounds w h q = true ∧
              isMagenta (img q).r (img q).g (img q).b tolerance = true then
            if false = true then (⟨0, 0, 0, 0⟩ : Pixel)
            else { (removeMagentaBackground w h tolerance opts img) q with a := 0 }
          else (removeMagentaBackground w h tolerance opts img) q)
          = removeMagentaBackground w h tolerance opts img := by
        funext q
        dsimp only
        split
        · rename_i hq
          rw [if_neg (by simp)]
          exact setAlphaZero_eq_self
            (removeMagenta_global_clears w h tolerance opts hff img q hq.1 hq.2)
        · rfl
      rw [himg0]
      rw [removeMagentaBackground, if_pos hff]
      dsimp only
      rw [hnz]
      rw [applyExpansionAndDespill_stable]
    · rw [removeMagentaBackground, if_neg hff]
      simp only [hbg_pt]
      rw [hnz]
      rw [removeMagentaBackground, if_neg hff]
      dsimp only
      rw [hnz]
      rw [applyExpansionAndDespill_stable]
  · rw [Bool.not_eq_false] at hnz
    by_cases hff : opts.useFloodFill = false
    · rw [removeMagentaBackground, if_pos hff]
      dsimp only
      have hdead : ∀ q : ℤ × ℤ, inBounds w h q = true →
          isMagenta ((removeMagentaBackground w h tolerance opts img) q).r
            ((removeMagentaBackground w h tolerance opts img) q).g
            ((removeMagentaBackground w h tolerance opts img) q).b tolerance = false := by
        intro q hq
        by_cases hz : ((removeMagentaBackground w h tolerance opts img) q).a = 0
        · obtain ⟨hr0, hg0, hb0⟩ :=
            removeMagentaBackground_neutralized w h tolerance opts hnz img q hq hz
          rw [hr0, hg0, hb0]
          exact isMagenta_zero tolerance
        · rcases removeMagentaBackground_untouched w h tolerance opts img q with hu | hu
          · rw [hu]
            rw [Bool.eq_false_iff]
            intro hmag
            exact hz (removeMagenta_global_clears w h tolerance opts hff img q hq hmag)
          · exact absurd hu hz
      have hmaskprop : ∀ x ∈ (grid w h).filter fun q =>
          isMagenta ((removeMagentaBackground w h tolerance opts img) q).r
            ((removeMagentaBackground w h tolerance opts img) q).g
            ((removeMagentaBackground w h tolerance opts img) q).b tolerance = true,
          inBounds w h x = false := by
        intro x hx
        rw [Finset.mem_filter] at hx
        have := hdead x (mem_grid.mp hx.1)
        rw [hx.2] at this
        exact absurd this (by simp)
      have himg0 : (fun q : ℤ × ℤ =>
          if inBounds w h q = true ∧
              isMagenta ((removeMagentaBackground w h tolerance opts img) q).r
                ((removeMagentaBackground w h tolerance opts img) q).g
                ((removeMagentaBackground w h tolerance opts img) q).b tolerance = true then
            if opts.neutralize = true then (⟨0, 0, 0, 0⟩ : Pixel)
            else { (removeMagentaBackground w h tolerance opts img) q with a := 0 }
          else (removeMagentaBackground w h tolerance opts img) q)
          = removeMagentaBackground w h tolerance opts img := by
        funext q
        dsimp only
        rw [if_neg]
        intro hc
        rw [hdead q hc.1] at hc
        exact absurd hc.2 (by simp)
      rw [himg0]
      exact applyExpansionAndDespill_outside_alpha w h _ _ _ _ _ hmaskprop p
    · have hfft : opts.useFloodFill = true := by
        rw [Bool.not_eq_false] at hff
        exact hff
      rw [removeMagentaBackground, if_neg hff]
      have hborderdead : ∀ q : ℤ × ℤ, inBounds w h q = true →
          (q.2 = 0 ∨ q.2 = h - 1 ∨ q.1 = 0 ∨ q.1 = w - 1) →
          isMagenta ((removeMagentaBackground w h tolerance opts img) q).r
            ((removeMagentaBackground w h tolerance opts img) q).g
            ((removeMagentaBackground w h tolerance opts img) q).b tolerance = false := by
        intro q hq hedge
        by_cases hz : ((removeMagentaBackground w h tolerance opts img) q).a = 0
        · obtain ⟨hr0, hg0, hb0⟩ :=
            removeMagentaBackground_neutralized w h tolerance opts hnz img q hq hz
          rw [hr0, hg0, hb0]
          exact isMagenta_zero tolerance
        · rcases removeMagentaBackground_untouched w h tolerance opts img q with hu | hu
          · rw [hu]
            rw [Bool.eq_false_iff]
            intro hmag
            exact hz
              (removeMagenta_flood_clears_border w h tolerance opts hfft img q hq hedge hmag)
          · exact absurd hu hz
      have hout : ∀ v ∈ floodLoop (fun q =>
          isMagenta ((removeMagentaBackground w h tolerance opts img) q).r
            ((removeMagentaBackground w h tolerance opts img) q).g
            ((removeMagentaBackground w h tolerance opts img) q).b tolerance) w h
          (seedScan (fun q =>
            isMagenta ((removeMagentaBackground w h tolerance opts img) q).r
              ((removeMagentaBackground w h tolerance opts img) q).g
              ((removeMagentaBackground w h tolerance opts img) q).b tolerance)
            (edgeCandidates w h) ([], ∅)).1
          (seedScan (fun q =>
            isMagenta ((removeMagentaBackground w h tolerance opts img) q).r
              ((removeMagentaBackground w h tolerance opts img) q).g
              ((removeMagentaBackground w h tolerance opts img) q).b tolerance)
            (edgeCandidates w h) ([], ∅)).2,
          inBounds w h v = false := by
        have hclosed : ∀ c n : ℤ × ℤ, inBounds w h c = false →
            n ∈ neighborsOf dirs4 c →
            isMagenta ((removeMagentaBackground w h tolerance opts img) n).r
              ((removeMagentaBackground w h tolerance opts img) n).g
              ((removeMagentaBackground w h tolerance opts img) n).b tolerance = true →
            inBounds w h n = false := by
          intro c n hc hn hbg
          rw [Bool.eq_false_iff]
          intro hnb
          rw [hborderdead n hnb (neighbor_of_outside_border hn hc hnb)] at hbg
          exact absurd hbg (by simp)
        have hseed : ∀ c : ℤ × ℤ, c ∈ edgeCandidates w h →
            isMagenta ((removeMagentaBackground w h tolerance opts img) c).r
              ((removeMagentaBackground w h tolerance opts img) c).g
              ((removeMagentaBackground w h tolerance opts img) c).b tolerance = true →
            inBounds w h c = false := by
          intro c hc hbg
          rw [Bool.eq_false_iff]
          intro hcb
          rw [hborderdead c hcb (edgeCandidates_border hc)] at hbg
          exact absurd hbg (by simp)
        refine floodLoop_closed _ w h (fun c => inBounds w h c = false)
          (fun c n hc hn hbg => hclosed c n hc hn hbg) _ _ ?_ ?_
        · intro c hc
          rcases (seedScan_spec _ (edgeCandidates w h) ([], ∅)).1 c hc with hc' | hc'
          · exact absurd hc' (List.not_mem_nil c)
          · exact hseed c hc'.1 hc'.2
        · intro v hv
          rcases (seedScan_spec _ (edgeCandidates w h) ([], ∅)).2 v hv with hv' | hv'
          · exact absurd hv' (Finset.not_mem_empty v)
          · exact hseed v hv'.1 hv'.2
      exact applyExpansionAndDespill_outside_alpha w h _ _ _ _ _ hout p

/-- C5: background removal is idempotent on the alpha channel: applying
`removeWhiteBackground` (resp. `removeMagentaBackground`) twice with the same
parameters yields the same alpha channel as applying it once. -/
theorem claim_C5_idempotent (img : Img) (w h : ℤ) (colorDistance : ℤ)
    (selection : Option Selection) (expansion : ℕ) (tolerance : ℚ)
    (opts : MagentaCleanupOptions) (p : ℤ × ℤ) :
    ((removeWhiteBackground w h colorDistance selection expansion
        (removeWhiteBackground w h colorDistance selection expansion img)) p).a =
      ((removeWhiteBackground w h colorDistance selection expansion img) p).a ∧
    ((removeMagentaBackground w h tolerance opts
        (removeMagentaBackground w h tolerance opts img)) p).a =
      ((removeMagentaBackground w h tolerance opts img) p).a :=
  ⟨removeWhiteBackground_idem_alpha w h colorDistance selection expansion img p,
    removeMagentaBackground_idem_alpha w h tolerance opts img p⟩
